import Mathlib

/-!
Verification development for the partial-persistence (node-copying) engine
and its linked-list client, `time_travel/partial.py`.

Nodes live in an arena (`Heap`, a list of nodes indexed by position); a
Python object reference is modelled as an arena index (`Val.ref`).  Python's
`None` is `Option.none`; data values are `Val.intV`.  Python exceptions are
modelled by an error result that carries the state at the moment the
exception is raised, matching Python's in-place mutation semantics where
partial updates survive an exception.  Recursion in the split cascade is
bounded by explicit fuel (an artifact of the embedding; every call consumes
one unit, so any sufficiently large fuel produces the program's behaviour).
-/

deriving instance DecidableEq for Except

namespace TimeTravel

/-- A runtime value: a Python int or a reference to a node in the arena. -/
inductive Val where
  | intV : Int → Val
  | ref : Nat → Val
deriving DecidableEq

/-- Python exceptions raised by the code (plus two model artifacts). -/
inductive Err where
  | assertFail : Err
  | attrNone : Err
  | badRef : Err
  | fuelOut : Err
deriving DecidableEq

/-- One log entry: (version, field tag, value), as in `self.mods`. -/
abbrev Mod := Nat × String × Option Val

/-- `PartialPersistentNode`: schema (`p`, data tags `dt`, pointer tags `pt`),
baseline `fields`, reverse sets `back`, and the modification log `mods`. -/
structure PersistentNode where
  p : Nat
  dt : List String
  pt : List String
  fields : String → Option Val
  back : String → List Nat
  mods : List Mod

abbrev Heap := List PersistentNode

/-- `PartialPersistentNode.__init__`: all fields absent, empty reverse sets,
empty log. -/
def mkNode (dt pt : List String) (p : Nat) : PersistentNode :=
  { p := p, dt := dt, pt := pt,
    fields := fun _ => none,
    back := fun _ => [],
    mods := [] }

/-- The loop body of `read`: scan the log in order, breaking at the first
entry with version greater than `v`, keeping the last matching value. -/
def readLoop (var : String) (v : Nat) : Option Val → List Mod → Option Val
  | res, [] => res
  | res, (mv, mf, mval) :: rest =>
    if v < mv then res
    else readLoop var v (if mf = var then mval else res) rest

/-- `PartialPersistentNode.read`: assert the tag is declared, then scan. -/
def PersistentNode.read (n : PersistentNode) (var : String) (v : Nat) :
    Except Err (Option Val) :=
  if var ∈ n.dt ++ n.pt then .ok (readLoop var v (n.fields var) n.mods)
  else .error .assertFail

/-- Python `set.add`: no duplicates; we realise the set as a list. -/
def setAdd (s : List Nat) (x : Nat) : List Nat :=
  if x ∈ s then s else s ++ [x]

/-- Python `set.remove` restricted to a present element. -/
def setRemove (s : List Nat) (x : Nat) : List Nat :=
  s.filter (fun y => y ≠ x)

/-- `PartialPersistentNode.set_back`: assert `ptr` is a pointer tag; remove
`old` from the reverse set when given and present; add `nw`. -/
def PersistentNode.setBack (n : PersistentNode) (ptr : String) (nw : Nat)
    (old : Option Nat) : Except Err PersistentNode :=
  if ptr ∈ n.pt then
    let b0 := n.back ptr
    let b1 := match old with
      | some o => if o ∈ b0 then setRemove b0 o else b0
      | none => b0
    .ok { n with back := fun t => if t = ptr then setAdd b1 nw else n.back t }
  else .error .assertFail

/-- The fold in the split branch of `write`: apply each log entry in order
to the (initially all-absent) field map of the fresh node. -/
def foldMods (f : String → Option Val) : List Mod → (String → Option Val)
  | [] => f
  | (_, mf, mv) :: rest => foldMods (fun t => if t = mf then mv else f t) rest

/-- Result of a state-mutating engine call: success or a raised exception,
in both cases carrying the arena at that moment. -/
inductive ER (α : Type) where
  | ok : α → Heap → ER α
  | err : Err → Heap → ER α

def ER.heap {α : Type} : ER α → Heap
  | .ok _ h => h
  | .err _ h => h

def ER.isOk {α : Type} : ER α → Bool
  | .ok _ _ => true
  | .err _ _ => false

/-- The field map of the node allocated by a split: the folded log, with the
written tag holding the written value directly. -/
def splitFields (n : PersistentNode) (var : String) (val : Option Val) :
    String → Option Val :=
  fun t => if t = var then val else foldMods (fun _ => none) n.mods t

/-- The node allocated by a split, before the split's reverse-set loops. -/
def splitNode (n : PersistentNode) (var : String) (val : Option Val) :
    PersistentNode :=
  { p := n.p, dt := n.dt, pt := n.pt,
    fields := splitFields n var val,
    back := fun t => n.back t,
    mods := [] }

/-- The four mutually recursive pieces of `write` — the write itself, the
split's two loops over pointer tags, and the rewrite of one referencer
list — bundled as one task type so the recursion is structural on the fuel
(and hence the kernel can evaluate it). -/
inductive WTask where
  | wr (i now : Nat) (var : String) (val : Option Val)
  | targets (nf : String → Option Val) (newId oldId : Nat) (ptrs : List String)
  | cascade (newId now : Nat) (ptrs : List String)
  | rewire (ys : List Nat) (now : Nat) (ptr : String) (newId : Nat)

/-- `PartialPersistentNode.write(now, var, val)` on node `i` of the arena
(task `wr`).  If the log has at most `2*p` entries, append
`(now, var, val)`.  Otherwise split: allocate a fresh node whose fields
fold the log (then hold `val` at `var` directly) and whose reverse sets are
copied, repoint the reverse sets of every node the new node points to
(task `targets`; a `None` or non-node pointer target raises, as
`None.set_back` does in Python), then cascade `write(now, ptr, new)` to
every recorded referencer (tasks `cascade` and `rewire`; Python iterates
the live set — we iterate the snapshot taken when the loop over a tag
starts, the only sane determinisation of CPython's behaviour). -/
def engineStep : Nat → Heap → WTask → ER Unit
  | 0, h, _ => .err .fuelOut h
  | fuel + 1, h, .wr i now var val =>
    match h.get? i with
    | none => .err .badRef h
    | some n =>
      if var ∈ n.dt ++ n.pt then
        if n.mods.length ≤ 2 * n.p then
          .ok () (h.set i { n with mods := n.mods ++ [(now, var, val)] })
        else
          match engineStep fuel (h ++ [splitNode n var val])
              (.targets (splitFields n var val) h.length i n.pt) with
          | .err e h2 => .err e h2
          | .ok _ h2 => engineStep fuel h2 (.cascade h.length now n.pt)
      else .err .assertFail h
  | fuel + 1, h, .targets nf newId oldId ptrs =>
    match ptrs with
    | [] => .ok () h
    | ptr :: rest =>
      match nf ptr with
      | some (Val.ref j) =>
        match h.get? j with
        | none => .err .badRef h
        | some tn =>
          match tn.setBack ptr newId (some oldId) with
          | .error e => .err e h
          | .ok tn2 => engineStep fuel (h.set j tn2) (.targets nf newId oldId rest)
      | _ => .err .attrNone h
  | fuel + 1, h, .cascade newId now ptrs =>
    match ptrs with
    | [] => .ok () h
    | ptr :: rest =>
      let ys := match h.get? newId with
        | some nn => nn.back ptr
        | none => []
      match engineStep fuel h (.rewire ys now ptr newId) with
      | .err e h2 => .err e h2
      | .ok _ h2 => engineStep fuel h2 (.cascade newId now rest)
  | fuel + 1, h, .rewire ys now ptr newId =>
    match ys with
    | [] => .ok () h
    | y :: rest =>
      match engineStep fuel h (.wr y now ptr (some (Val.ref newId))) with
      | .err e h2 => .err e h2
      | .ok _ h2 => engineStep fuel h2 (.rewire rest now ptr newId)

/-- `write` proper. -/
def writeNode (fuel : Nat) (h : Heap) (i now : Nat) (var : String)
    (val : Option Val) : ER Unit :=
  engineStep fuel h (.wr i now var val)

/-- The split's first loop, as a standalone entry point. -/
def setBackTargets (fuel : Nat) (h : Heap) (nf : String → Option Val)
    (newId oldId : Nat) (ptrs : List String) : ER Unit :=
  engineStep fuel h (.targets nf newId oldId ptrs)

/-- The split's second loop, as a standalone entry point. -/
def cascadeAll (fuel : Nat) (h : Heap) (newId now : Nat)
    (ptrs : List String) : ER Unit :=
  engineStep fuel h (.cascade newId now ptrs)

/-- The rewrite of one referencer list, as a standalone entry point. -/
def cascadeList (fuel : Nat) (h : Heap) (ys : List Nat) (now : Nat)
    (ptr : String) (newId : Nat) : ER Unit :=
  engineStep fuel h (.rewire ys now ptr newId)

/-- Heap-level read: `node.read(var, v)` through an arena index. -/
def hread (h : Heap) (i : Nat) (var : String) (v : Nat) :
    Except Err (Option Val) :=
  match h.get? i with
  | some n => n.read var v
  | none => .error .badRef

/-- The `LinkedList` object: its arena of nodes (the root is node 0) and the
`_timestamp` counter. -/
structure LinkedList where
  heap : Heap
  ts : Nat

/-- `LinkedList.__init__`: one root node with schema
`dt = ['value']`, `pt = ['next_ptr']`, `p = 1`; timestamp 0. -/
def mkLinkedList : LinkedList :=
  { heap := [mkNode ["value"] ["next_ptr"] 1], ts := 0 }

/-- `LinkedList.now()`: return the counter, then advance it. -/
def tickL (L : LinkedList) : Nat × LinkedList :=
  (L.ts, { L with ts := L.ts + 1 })

/-- Result of a `LinkedList` operation, carrying the object state as it is
at return or at the moment an exception propagates out. -/
inductive LR where
  | ok : LinkedList → LR
  | err : Err → LinkedList → LR

def LR.state : LR → LinkedList
  | .ok L => L
  | .err _ L => L

def LR.isOk : LR → Bool
  | .ok _ => true
  | .err _ _ => false

/-- `LinkedList.set_root_value(val)`. -/
def setRootValue (fuel : Nat) (L : LinkedList) (v : Int) : LR :=
  let t := tickL L
  match writeNode fuel t.2.heap 0 t.1 "value" (some (Val.intV v)) with
  | .ok _ h => .ok { heap := h, ts := t.2.ts }
  | .err e h => .err e { heap := h, ts := t.2.ts }

/-- The `while True` traversal of `append`: follow `next_ptr` at version
`atv` until an absent reference; a non-node cursor raises. -/
def findLast (fuel : Nat) (h : Heap) (cur : Nat) (atv : Nat) :
    Except Err Nat :=
  match fuel with
  | 0 => .error .fuelOut
  | fuel + 1 =>
    match hread h cur "next_ptr" atv with
    | .error e => .error e
    | .ok none => .ok cur
    | .ok (some (Val.ref j)) => findLast fuel h j atv
    | .ok (some (Val.intV _)) => .error .attrNone

/-- `LinkedList.append(val)`: traverse to the last node, allocate a fresh
node, write its value at `atv`, record the cursor in the fresh node's
reverse set, and write the cursor's `next_ptr`. -/
def appendL (fuel : Nat) (L : LinkedList) (v : Int) : LR :=
  let t := tickL L
  let atv := t.1
  let L1 := t.2
  match findLast fuel L1.heap 0 atv with
  | .error e => .err e L1
  | .ok cursor =>
    let newId := L1.heap.length
    let h1 := L1.heap ++ [mkNode ["value"] ["next_ptr"] 1]
    match writeNode fuel h1 newId atv "value" (some (Val.intV v)) with
    | .err e h2 => .err e { heap := h2, ts := L1.ts }
    | .ok _ h2 =>
      match h2.get? newId with
      | none => .err .badRef { heap := h2, ts := L1.ts }
      | some nn =>
        match nn.setBack "next_ptr" cursor none with
        | .error e => .err e { heap := h2, ts := L1.ts }
        | .ok nn2 =>
          let h3 := h2.set newId nn2
          match writeNode fuel h3 cursor atv "next_ptr" (some (Val.ref newId)) with
          | .err e h4 => .err e { heap := h4, ts := L1.ts }
          | .ok _ h4 => .ok { heap := h4, ts := L1.ts }

/-- Result of the `for _ in range(i)` hop loop shared by `modify`, `insert`
and `delete`: the cursor reached, or an absent reference on the way, or an
exception. -/
inductive HopRes where
  | reached : Nat → HopRes
  | offEnd : HopRes
  | failed : Err → HopRes
deriving DecidableEq

/-- Hop `k` times from `cur` following `next_ptr` at version `atv`. -/
def hops (h : Heap) (atv : Nat) (cur : Nat) : Nat → HopRes
  | 0 => .reached cur
  | k + 1 =>
    match hread h cur "next_ptr" atv with
    | .error e => .failed e
    | .ok none => .offEnd
    | .ok (some (Val.ref j)) => hops h atv j k
    | .ok (some (Val.intV _)) => .failed .attrNone

/-- `LinkedList.modify_ith_node_val(i, val)`: hop `i` times; if the cursor
runs off the end, fall back to `append(val)` (which takes a fresh version
stamp of its own); otherwise write the cursor's value at `atv`. -/
def modifyL (fuel : Nat) (L : LinkedList) (i : Nat) (v : Int) : LR :=
  let t := tickL L
  let atv := t.1
  let L1 := t.2
  match hops L1.heap atv 0 i with
  | .failed e => .err e L1
  | .offEnd => appendL fuel L1 v
  | .reached c =>
    match writeNode fuel L1.heap c atv "value" (some (Val.intV v)) with
    | .err e h => .err e { heap := h, ts := L1.ts }
    | .ok _ h => .ok { heap := h, ts := L1.ts }

/-- `LinkedList.insert_after_ith_node(i, val)`: hop `i` times (same off-end
fallback to `append`), capture the successor, allocate a fresh node, then:
write the fresh node's value; write the cursor's `next_ptr` to it; write its
`next_ptr` to the captured successor; repoint the successor's reverse set
(raising when the successor is absent); record the cursor in the fresh
node's reverse set. -/
def insertL (fuel : Nat) (L : LinkedList) (i : Nat) (v : Int) : LR :=
  let t := tickL L
  let atv := t.1
  let L1 := t.2
  match hops L1.heap atv 0 i with
  | .failed e => .err e L1
  | .offEnd => appendL fuel L1 v
  | .reached c =>
    match hread L1.heap c "next_ptr" atv with
    | .error e => .err e L1
    | .ok nxt =>
      let newId := L1.heap.length
      let h1 := L1.heap ++ [mkNode ["value"] ["next_ptr"] 1]
      match writeNode fuel h1 newId atv "value" (some (Val.intV v)) with
      | .err e h2 => .err e { heap := h2, ts := L1.ts }
      | .ok _ h2 =>
        match writeNode fuel h2 c atv "next_ptr" (some (Val.ref newId)) with
        | .err e h3 => .err e { heap := h3, ts := L1.ts }
        | .ok _ h3 =>
          match writeNode fuel h3 newId atv "next_ptr" nxt with
          | .err e h4 => .err e { heap := h4, ts := L1.ts }
          | .ok _ h4 =>
            match nxt with
            | none => .err .attrNone { heap := h4, ts := L1.ts }
            | some (Val.intV _) => .err .attrNone { heap := h4, ts := L1.ts }
            | some (Val.ref nj) =>
              match h4.get? nj with
              | none => .err .badRef { heap := h4, ts := L1.ts }
              | some nxn =>
                match nxn.setBack "next_ptr" newId (some c) with
                | .error e => .err e { heap := h4, ts := L1.ts }
                | .ok nxn2 =>
                  let h5 := h4.set nj nxn2
                  match h5.get? newId with
                  | none => .err .badRef { heap := h5, ts := L1.ts }
                  | some nn =>
                    match nn.setBack "next_ptr" c none with
                    | .error e => .err e { heap := h5, ts := L1.ts }
                    | .ok nn2 => .ok { heap := h5.set newId nn2, ts := L1.ts }

/-- `LinkedList.delete_ith_node(i)`: assert `i > 0`; hop `i - 1` times,
returning silently if the cursor runs off the end; read the successor and
its successor (an absent successor raises on its `read`); write the cursor's
`next_ptr` to the second successor; repoint the second successor's reverse
set (raising when it is absent). -/
def deleteL (fuel : Nat) (L : LinkedList) (i : Nat) : LR :=
  if i = 0 then .err .assertFail L else
  let t := tickL L
  let atv := t.1
  let L1 := t.2
  match hops L1.heap atv 0 (i - 1) with
  | .failed e => .err e L1
  | .offEnd => .ok L1
  | .reached c =>
    match hread L1.heap c "next_ptr" atv with
    | .error e => .err e L1
    | .ok none => .err .attrNone L1
    | .ok (some (Val.intV _)) => .err .attrNone L1
    | .ok (some (Val.ref nj)) =>
      match hread L1.heap nj "next_ptr" atv with
      | .error e => .err e L1
      | .ok nxn =>
        match writeNode fuel L1.heap c atv "next_ptr" nxn with
        | .err e h => .err e { heap := h, ts := L1.ts }
        | .ok _ h =>
          match nxn with
          | none => .err .attrNone { heap := h, ts := L1.ts }
          | some (Val.intV _) => .err .attrNone { heap := h, ts := L1.ts }
          | some (Val.ref kk) =>
            match h.get? kk with
            | none => .err .badRef { heap := h, ts := L1.ts }
            | some kn =>
              match kn.setBack "next_ptr" c (some nj) with
              | .error e => .err e { heap := h, ts := L1.ts }
              | .ok kn2 => .ok { heap := h.set kk kn2, ts := L1.ts }

/-- Python `str(...)` of a value as it appears in the rendering. -/
def valStr : Option Val → String
  | none => "None"
  | some (Val.intV k) => toString k
  | some (Val.ref _) => "<node>"

/-- The `while cursor` loop of `str_`: append `str(value) + '->'` for each
node and follow `next_ptr` at version `v`; `none` is a raised exception or
exhausted fuel. -/
def strAux (fuel : Nat) (h : Heap) (v : Nat) (cur : Nat) (acc : String) :
    Option String :=
  match fuel with
  | 0 => none
  | fuel + 1 =>
    match hread h cur "value" v with
    | .error _ => none
    | .ok valv =>
      let acc2 := acc ++ valStr valv ++ "->"
      match hread h cur "next_ptr" v with
      | .error _ => none
      | .ok none => some (acc2 ++ "END")
      | .ok (some (Val.ref j)) => strAux fuel h v j acc2
      | .ok (some (Val.intV _)) => none

/-- `LinkedList.str_(v)`: render the list visible at version `v`. -/
def strAt (fuel : Nat) (L : LinkedList) (v : Nat) : Option String :=
  strAux fuel L.heap v 0 ""

/-- `LinkedList.__str__`: render at the current value of `_timestamp`. -/
def strCurrent (fuel : Nat) (L : LinkedList) : Option String :=
  strAt fuel L L.ts

/-- The public operations of the linked structure (plus the clock query). -/
inductive Op where
  | seed : Int → Op
  | app : Int → Op
  | modify : Nat → Int → Op
  | insert : Nat → Int → Op
  | delete : Nat → Op
  | tick : Op
deriving DecidableEq

/-- Dispatch one operation. -/
def runOp (fuel : Nat) (L : LinkedList) : Op → LR
  | .seed v => setRootValue fuel L v
  | .app v => appendL fuel L v
  | .modify i v => modifyL fuel L i v
  | .insert i v => insertL fuel L i v
  | .delete i => deleteL fuel L i
  | .tick => .ok (tickL L).2

/-- Sequencing of operation results: a raised exception propagates. -/
def LR.andThen (r : LR) (k : LinkedList → LR) : LR :=
  match r with
  | .ok L => k L
  | .err e L => .err e L

/-- Run a sequence of operations, stopping at the first exception. -/
def runOps (fuel : Nat) (L : LinkedList) : List Op → LR
  | [] => .ok L
  | o :: rest => (runOp fuel L o).andThen (fun L2 => runOps fuel L2 rest)

/-- The states reachable from a fresh `LinkedList` by successfully completed
operations (including clock queries). -/
inductive Reach : LinkedList → Prop where
  | init : Reach mkLinkedList
  | step {L : LinkedList} (f : Nat) (o : Op) : Reach L →
      (runOp f L o).isOk = true → Reach (runOp f L o).state

/-! ### The specification-side reading rule

`read(tag, v)` = value of the most recent log entry with `version ≤ v`,
else `fields[tag]`: filter the log down to the entries for `tag` with
version at most `v` and take the last (most recent) one. -/

/-- A log entry is visible for `var` at version `v` when its version is at
most `v` and it writes `var`. -/
def modMatches (var : String) (v : Nat) (m : Mod) : Bool :=
  decide (m.1 ≤ v) && decide (m.2.1 = var)

/-- Value of the most recent visible entry, else the baseline. -/
def specRead (base : Option Val) (var : String) (v : Nat) (mods : List Mod) :
    Option Val :=
  match (mods.filter (modMatches var v)).getLast? with
  | some m => m.2.2
  | none => base

theorem getLast?_cons_elim {α : Type} (l : List α) : ∀ (a : α),
    (a :: l).getLast? = some (match l.getLast? with | some x => x | none => a) := by
  induction l with
  | nil => intro a; rfl
  | cons b t ih =>
    intro a
    rw [List.getLast?_cons_cons, ih b]

theorem specRead_cons_matched (base : Option Val) (var : String) (v : Nat)
    (m : Mod) (rest : List Mod) (hm : modMatches var v m = true) :
    specRead base var v (m :: rest) = specRead m.2.2 var v rest := by
  unfold specRead
  rw [List.filter_cons_of_pos hm, getLast?_cons_elim _ _]
  cases (rest.filter (modMatches var v)).getLast? <;> rfl

theorem specRead_cons_unmatched (base : Option Val) (var : String) (v : Nat)
    (m : Mod) (rest : List Mod) (hm : modMatches var v m = false) :
    specRead base var v (m :: rest) = specRead base var v rest := by
  unfold specRead
  rw [List.filter_cons_of_neg (by simp [hm])]

theorem specRead_all_unmatched (base : Option Val) (var : String) (v : Nat)
    (mods : List Mod) (h : ∀ m ∈ mods, modMatches var v m = false) :
    specRead base var v mods = base := by
  unfold specRead
  rw [List.filter_eq_nil_iff.2 (by intro m hm; simp [h m hm])]
  rfl

/-- Under a nondecreasing log, the break-at-first-high-version scan of the
code computes exactly the most-recent-visible-entry rule of the spec. -/
theorem readLoop_eq_specRead (var : String) (v : Nat) (mods : List Mod)
    (hsort : mods.Pairwise (fun a b => a.1 ≤ b.1)) :
    ∀ res, readLoop var v res mods = specRead res var v mods := by
  induction mods with
  | nil => intro res; rfl
  | cons m rest ih =>
    intro res
    obtain ⟨mv, mf, mval⟩ := m
    rcases List.pairwise_cons.1 hsort with ⟨hhd, htl⟩
    by_cases hv : v < mv
    · rw [readLoop, if_pos hv, specRead_all_unmatched]
      intro b hb
      rcases List.mem_cons.1 hb with hb | hb
      · subst hb; simp [modMatches, Nat.not_le.2 hv]
      · have h2 : mv ≤ b.1 := hhd b hb
        simp [modMatches, Nat.not_le.2 (Nat.lt_of_lt_of_le hv h2)]
    · rw [readLoop, if_neg hv]
      by_cases hf : mf = var
      · rw [if_pos hf, ih htl,
          specRead_cons_matched _ _ _ _ _ (by simp [modMatches, Nat.le_of_not_lt hv, hf])]
      · rw [if_neg hf, ih htl,
          specRead_cons_unmatched _ _ _ _ _ (by simp [modMatches, hf])]

/-- C1 — For every node whose log is sorted in nondecreasing version order
and every declared tag, `read(tag, v)` returns the value of the most recent
log entry for that tag with version ≤ `v`, and returns the baseline
`fields[tag]` when no such entry exists. -/
theorem read_returns_most_recent_visible_entry (n : PersistentNode)
    (var : String) (v : Nat) (hvar : var ∈ n.dt ++ n.pt)
    (hsort : n.mods.Pairwise (fun a b => a.1 ≤ b.1)) :
    n.read var v = .ok (specRead (n.fields var) var v n.mods) := by
  unfold PersistentNode.read
  rw [if_pos hvar, readLoop_eq_specRead var v n.mods hsort]

/-- Node used to exercise C1's theorem at a concrete input. -/
def c1Node : PersistentNode :=
  { p := 1, dt := ["value"], pt := ["next_ptr"],
    fields := fun _ => none,
    back := fun _ => [],
    mods := [(0, "value", some (Val.intV 1)), (1, "next_ptr", some (Val.ref 3)),
             (2, "value", some (Val.intV 7)), (5, "value", some (Val.intV 9))] }

/-! ### Further facts about the log scan -/

/-- Entries with version above `v` appended at the end of the log never
change a read at `v`: the scan either breaks before them or at them. -/
theorem readLoop_append_gt (var : String) (v : Nat) (ext : List Mod)
    (hext : ∀ e ∈ ext, v < e.1) :
    ∀ (mods : List Mod) (res : Option Val),
      readLoop var v res (mods ++ ext) = readLoop var v res mods := by
  intro mods
  induction mods with
  | nil =>
    intro res
    cases ext with
    | nil => rfl
    | cons e t =>
      obtain ⟨mv, mf, mval⟩ := e
      rw [List.nil_append]
      simp only [readLoop]
      rw [if_pos (hext (mv, mf, mval) (List.mem_cons_self _ t))]
  | cons m rest ih =>
    intro res
    obtain ⟨mv, mf, mval⟩ := m
    rw [List.cons_append]
    simp only [readLoop]
    by_cases hv : v < mv
    · rw [if_pos hv, if_pos hv]
    · rw [if_neg hv, if_neg hv, ih]

/-- Appending `(now, var, x)` to a log whose versions are all at most `now`
makes a read of `var` at `now` return `x`. -/
theorem readLoop_last (var : String) (now : Nat) (x : Option Val) :
    ∀ (mods : List Mod) (res : Option Val), (∀ e ∈ mods, e.1 ≤ now) →
      readLoop var now res (mods ++ [(now, var, x)]) = x := by
  intro mods
  induction mods with
  | nil =>
    intro res _
    rw [List.nil_append]
    simp [readLoop]
  | cons m rest ih =>
    intro res hall
    obtain ⟨mv, mf, mval⟩ := m
    rw [List.cons_append]
    simp only [readLoop]
    rw [if_neg (Nat.not_lt.2 (hall (mv, mf, mval) (List.mem_cons_self _ rest)))]
    exact ih _ (fun e he => hall e (List.mem_cons_of_mem _ he))

/-- A read only looks at the comparisons `v < version`: two query versions
that compare equally against every logged version read identically. -/
theorem readLoop_congr (var : String) (v w : Nat) :
    ∀ (mods : List Mod) (res : Option Val),
      (∀ e ∈ mods, (v < e.1 ↔ w < e.1)) →
      readLoop var v res mods = readLoop var w res mods := by
  intro mods
  induction mods with
  | nil => intro res _; rfl
  | cons m rest ih =>
    intro res hall
    obtain ⟨mv, mf, mval⟩ := m
    simp only [readLoop]
    by_cases hv : v < mv
    · rw [if_pos hv, if_pos ((hall _ (List.mem_cons_self _ rest)).1 hv)]
    · rw [if_neg hv,
        if_neg (fun hw => hv ((hall _ (List.mem_cons_self _ rest)).2 hw)),
        ih _ (fun e he => hall e (List.mem_cons_of_mem _ he))]

/-! ### Branch equations for `write` -/

theorem writeNode_missing (f : Nat) {h : Heap} {i : Nat} (now : Nat)
    (var : String) (val : Option Val) (hg : h.get? i = none) :
    writeNode (f + 1) h i now var val = .err .badRef h := by
  rw [writeNode]; simp only [engineStep, hg]

theorem writeNode_badTag (f : Nat) {h : Heap} {i : Nat} {n : PersistentNode}
    (now : Nat) (var : String) (val : Option Val) (hg : h.get? i = some n)
    (hvar : var ∉ n.dt ++ n.pt) :
    writeNode (f + 1) h i now var val = .err .assertFail h := by
  rw [writeNode]; simp only [engineStep, hg]; rw [if_neg hvar]

theorem writeNode_nonsplit (f : Nat) {h : Heap} {i : Nat} {n : PersistentNode}
    (now : Nat) (var : String) (val : Option Val) (hg : h.get? i = some n)
    (hvar : var ∈ n.dt ++ n.pt) (hlen : n.mods.length ≤ 2 * n.p) :
    writeNode (f + 1) h i now var val =
      .ok () (h.set i { n with mods := n.mods ++ [(now, var, val)] }) := by
  rw [writeNode]; simp only [engineStep, hg]; rw [if_pos hvar, if_pos hlen]

theorem writeNode_split (f : Nat) {h : Heap} {i : Nat} {n : PersistentNode}
    (now : Nat) (var : String) (val : Option Val) (hg : h.get? i = some n)
    (hvar : var ∈ n.dt ++ n.pt) (hlen : ¬ n.mods.length ≤ 2 * n.p) :
    writeNode (f + 1) h i now var val =
      match setBackTargets f (h ++ [splitNode n var val])
          (splitFields n var val) h.length i n.pt with
      | .err e h2 => .err e h2
      | .ok _ h2 => cascadeAll f h2 h.length now n.pt := by
  rw [writeNode]; simp only [engineStep, hg]; rw [if_pos hvar, if_neg hlen]; rfl

/-- A successful `set_back` changes only the reverse sets. -/
theorem setBack_shape {n n2 : PersistentNode} {ptr : String} {nw : Nat}
    {old : Option Nat} (hsb : n.setBack ptr nw old = .ok n2) :
    n2.p = n.p ∧ n2.dt = n.dt ∧ n2.pt = n.pt ∧ n2.fields = n.fields ∧
      n2.mods = n.mods := by
  by_cases hp : ptr ∈ n.pt
  · simp only [PersistentNode.setBack, hp, if_true, Except.ok.injEq] at hsb
    subst hsb
    exact ⟨rfl, rfl, rfl, rfl, rfl⟩
  · simp only [PersistentNode.setBack, hp, if_false] at hsb
    exact Except.noConfusion hsb

/-! ### The structural effect of `write`

Whatever a `write(now, ...)` call does — split and cascade included, and
whether it returns or raises — it only ever: grows the arena, extends the
logs of pre-existing nodes with entries stamped `now` (their schema and
baseline fields untouched), and stamps `now` on every entry of every node
at or beyond the old arena length. -/

def WEff (now : Nat) (h h2 : Heap) : Prop :=
  h.length ≤ h2.length ∧
  (∀ j n, h.get? j = some n → ∃ n2 ext,
      h2.get? j = some n2 ∧ n2.p = n.p ∧ n2.dt = n.dt ∧ n2.pt = n.pt ∧
      n2.fields = n.fields ∧ n2.mods = n.mods ++ ext ∧ ∀ e ∈ ext, e.1 = now) ∧
  (∀ j n2, h.length ≤ j → h2.get? j = some n2 → ∀ e ∈ n2.mods, e.1 = now)

theorem WEff.weff_refl (now : Nat) (h : Heap) : WEff now h h := by
  refine ⟨Nat.le_refl _, ?_, ?_⟩
  · intro j n hj
    exact ⟨n, [], hj, rfl, rfl, rfl, rfl, by simp, by simp⟩
  · intro j n2 hlen hj
    rw [List.get?_eq_none.2 hlen] at hj
    cases hj

theorem WEff.weff_trans {now : Nat} {h1 h2 h3 : Heap}
    (a : WEff now h1 h2) (b : WEff now h2 h3) : WEff now h1 h3 := by
  obtain ⟨al, ao, an⟩ := a
  obtain ⟨bl, bo, bn⟩ := b
  refine ⟨Nat.le_trans al bl, ?_, ?_⟩
  · intro j n hj
    obtain ⟨n2, ext, hj2, hp, hdt, hpt, hf, hm, he⟩ := ao j n hj
    obtain ⟨n3, ext2, hj3, hp2, hdt2, hpt2, hf2, hm2, he2⟩ := bo j n2 hj2
    refine ⟨n3, ext ++ ext2, hj3, hp2.trans hp, hdt2.trans hdt, hpt2.trans hpt,
      hf2.trans hf, by rw [hm2, hm, List.append_assoc], ?_⟩
    intro e he3
    rcases List.mem_append.1 he3 with hh | hh
    · exact he e hh
    · exact he2 e hh
  · intro j n3 hlen hj3
    by_cases hcase : j < h2.length
    · obtain ⟨n2, hn2⟩ : ∃ n2, h2.get? j = some n2 := by
        cases hx : h2.get? j with
        | none => exact absurd (List.get?_eq_none.1 hx) (Nat.not_le.2 hcase)
        | some y => exact ⟨y, rfl⟩
      have hstamp := an j n2 hlen hn2
      obtain ⟨n3x, ext2, hj3x, _, _, _, _, hm2, he2⟩ := bo j n2 hn2
      rw [hj3x] at hj3
      cases hj3
      intro e he3
      rw [hm2] at he3
      rcases List.mem_append.1 he3 with hh | hh
      · exact hstamp e hh
      · exact he2 e hh
    · exact bn j n3 (Nat.le_of_not_lt hcase) hj3

theorem WEff.weff_set_sameShape {now : Nat} {h : Heap} {j : Nat}
    {n n2 : PersistentNode} (hj : h.get? j = some n) (hp : n2.p = n.p)
    (hdt : n2.dt = n.dt) (hpt : n2.pt = n.pt) (hf : n2.fields = n.fields)
    (hm : n2.mods = n.mods) : WEff now h (h.set j n2) := by
  have hjl : j < h.length := by
    by_contra hc
    rw [List.get?_eq_none.2 (Nat.le_of_not_lt hc)] at hj
    cases hj
  refine ⟨by rw [List.length_set], ?_, ?_⟩
  · intro q m hq
    by_cases hqj : q = j
    · subst hqj
      have hmn : m = n := by rw [hj] at hq; cases hq; rfl
      subst hmn
      refine ⟨n2, [], List.get?_set_eq_of_lt _ hjl, hp, hdt, hpt, hf,
        by simp [hm], by simp⟩
    · refine ⟨m, [], ?_, rfl, rfl, rfl, rfl, by simp, by simp⟩
      rw [List.get?_set_ne _ _ (fun hc => hqj hc.symm)]
      exact hq
  · intro q m hlen hq
    rw [List.get?_set_ne _ _ (fun hc => absurd hjl (by omega))] at hq
    rw [List.get?_eq_none.2 hlen] at hq
    cases hq

theorem WEff.set_appendMod {h : Heap} {i : Nat} {n : PersistentNode}
    (now : Nat) (var : String) (val : Option Val) (hi : h.get? i = some n) :
    WEff now h (h.set i { n with mods := n.mods ++ [(now, var, val)] }) := by
  have hjl : i < h.length := by
    by_contra hc
    rw [List.get?_eq_none.2 (Nat.le_of_not_lt hc)] at hi
    cases hi
  refine ⟨by rw [List.length_set], ?_, ?_⟩
  · intro q m hq
    by_cases hqj : q = i
    · subst hqj
      have hmn : m = n := by rw [hi] at hq; cases hq; rfl
      subst hmn
      refine ⟨{ m with mods := m.mods ++ [(now, var, val)] }, [(now, var, val)],
        List.get?_set_eq_of_lt _ hjl, rfl, rfl, rfl, rfl, rfl, by simp⟩
    · refine ⟨m, [], ?_, rfl, rfl, rfl, rfl, by simp, by simp⟩
      rw [List.get?_set_ne _ _ (fun hc => hqj hc.symm)]
      exact hq
  · intro q m hlen hq
    rw [List.get?_set_ne _ _ (fun hc => absurd hjl (by omega))] at hq
    rw [List.get?_eq_none.2 hlen] at hq
    cases hq

theorem WEff.weff_alloc {h : Heap} (now : Nat) {nn : PersistentNode}
    (hm : ∀ e ∈ nn.mods, e.1 = now) : WEff now h (h ++ [nn]) := by
  refine ⟨by simp, ?_, ?_⟩
  · intro j n hj
    have hjl : j < h.length := by
      by_contra hc
      rw [List.get?_eq_none.2 (Nat.le_of_not_lt hc)] at hj
      cases hj
    exact ⟨n, [], by rw [List.get?_append hjl, hj], rfl, rfl, rfl, rfl,
      by simp, by simp⟩
  · intro j n2 hlen hj
    rw [List.get?_append_right hlen] at hj
    cases hx : j - h.length with
    | zero =>
      rw [hx] at hj
      cases hj
      exact hm
    | succ q =>
      rw [hx] at hj
      simp at hj

/-- The master effect theorem, by induction on fuel across the four
mutually recursive functions. -/
theorem writeEffAll : ∀ fuel : Nat,
    (∀ h i now var val, WEff now h (writeNode fuel h i now var val).heap) ∧
    (∀ h nf newId oldId ptrs now,
      WEff now h (setBackTargets fuel h nf newId oldId ptrs).heap) ∧
    (∀ h newId now ptrs, WEff now h (cascadeAll fuel h newId now ptrs).heap) ∧
    (∀ h ys now ptr newId,
      WEff now h (cascadeList fuel h ys now ptr newId).heap) := by
  intro fuel
  induction fuel with
  | zero =>
    refine ⟨fun h i now var val => ?_, fun h nf newId oldId ptrs now => ?_,
      fun h newId now ptrs => ?_, fun h ys now ptr newId => ?_⟩
    · rw [writeNode]; rw [engineStep]; exact WEff.weff_refl now h
    · rw [setBackTargets]; rw [engineStep]; exact WEff.weff_refl now h
    · rw [cascadeAll]; rw [engineStep]; exact WEff.weff_refl now h
    · rw [cascadeList]; rw [engineStep]; exact WEff.weff_refl now h
  | succ f ih =>
    obtain ⟨ihw, ihs, iha, ihl⟩ := ih
    refine ⟨fun h i now var val => ?_, fun h nf newId oldId ptrs now => ?_,
      fun h newId now ptrs => ?_, fun h ys now ptr newId => ?_⟩
    · cases hg : h.get? i with
      | none => rw [writeNode_missing f now var val hg]; exact WEff.weff_refl now h
      | some n =>
        by_cases hvar : var ∈ n.dt ++ n.pt
        · by_cases hlen : n.mods.length ≤ 2 * n.p
          · rw [writeNode_nonsplit f now var val hg hvar hlen]
            exact WEff.set_appendMod now var val hg
          · rw [writeNode_split f now var val hg hvar hlen]
            have halloc : WEff now h (h ++ [splitNode n var val]) :=
              WEff.weff_alloc now (by intro e he; cases he)
            cases hsb : setBackTargets f (h ++ [splitNode n var val])
                (splitFields n var val) h.length i n.pt with
            | err e h2 =>
              have := ihs (h ++ [splitNode n var val]) (splitFields n var val)
                h.length i n.pt now
              rw [hsb] at this
              exact halloc.weff_trans this
            | ok u h2 =>
              have hstep := ihs (h ++ [splitNode n var val]) (splitFields n var val)
                h.length i n.pt now
              rw [hsb] at hstep
              exact (halloc.weff_trans hstep).weff_trans (iha h2 h.length now n.pt)
        · rw [writeNode_badTag f now var val hg hvar]; exact WEff.weff_refl now h
    · rw [setBackTargets]
      cases ptrs with
      | nil => rw [engineStep]; exact WEff.weff_refl now h
      | cons ptr rest =>
        rw [engineStep]
        split
        next j hnf =>
          split
          next => exact WEff.weff_refl now h
          next tn hg =>
            split
            next => exact WEff.weff_refl now h
            next tn2 hsb =>
              obtain ⟨hp, hdt, hpt, hf, hm⟩ := setBack_shape hsb
              exact (WEff.weff_set_sameShape hg hp hdt hpt hf hm).weff_trans
                (ihs (h.set j tn2) nf newId oldId rest now)
        next x hx => exact WEff.weff_refl now h
    · rw [cascadeAll]
      cases ptrs with
      | nil => rw [engineStep]; exact WEff.weff_refl now h
      | cons ptr rest =>
        rw [engineStep]
        have hW : WEff now h (engineStep f h (.rewire
            (match h.get? newId with | some nn => nn.back ptr | none => [])
            now ptr newId)).heap :=
          ihl h (match h.get? newId with | some nn => nn.back ptr | none => [])
            now ptr newId
        cases hcl : engineStep f h (.rewire
            (match h.get? newId with | some nn => nn.back ptr | none => [])
            now ptr newId) with
        | err e h2 =>
          rw [hcl] at hW
          exact hW
        | ok u h2 =>
          rw [hcl] at hW
          exact hW.weff_trans (iha h2 newId now rest)
    · rw [cascadeList]
      cases ys with
      | nil => rw [engineStep]; exact WEff.weff_refl now h
      | cons y rest =>
        rw [engineStep]
        have hW : WEff now h (engineStep f h
            (.wr y now ptr (some (Val.ref newId)))).heap :=
          ihw h y now ptr (some (Val.ref newId))
        cases hw : engineStep f h (.wr y now ptr (some (Val.ref newId))) with
        | err e h2 =>
          rw [hw] at hW
          exact hW
        | ok u h2 =>
          rw [hw] at hW
          exact hW.weff_trans (ihl h2 rest now ptr newId)

theorem writeNode_weff (fuel : Nat) (h : Heap) (i now : Nat) (var : String)
    (val : Option Val) : WEff now h (writeNode fuel h i now var val).heap :=
  (writeEffAll fuel).1 h i now var val

theorem writeNode_weff_ok {f : Nat} {h h2 : Heap} {i now : Nat}
    {var : String} {val : Option Val} {u : Unit}
    (hw : writeNode f h i now var val = .ok u h2) : WEff now h h2 := by
  have hx := writeNode_weff f h i now var val
  rw [hw] at hx
  exact hx

theorem writeNode_weff_err {f : Nat} {h h2 : Heap} {i now : Nat}
    {var : String} {val : Option Val} {e : Err}
    (hw : writeNode f h i now var val = .err e h2) : WEff now h h2 := by
  have hx := writeNode_weff f h i now var val
  rw [hw] at hx
  exact hx

/-- Pre-existing nodes read identically at any version below the write
stamp, whatever a write did: the appended entries all carry the stamp and
the scan breaks at or before them. -/
theorem WEff.weff_read_lt {now v : Nat} {h h2 : Heap} (w : WEff now h h2)
    (j : Nat) (tag : String) (hv : v < now) (hj : j < h.length) :
    hread h2 j tag v = hread h j tag v := by
  obtain ⟨n, hn⟩ : ∃ n, h.get? j = some n := by
    cases hx : h.get? j with
    | none => exact absurd (List.get?_eq_none.1 hx) (Nat.not_le.2 hj)
    | some y => exact ⟨y, rfl⟩
  obtain ⟨n2, ext, hj2, hp, hdt, hpt, hf, hm, he⟩ := w.2.1 j n hn
  have hx : ∀ e ∈ ext, v < e.1 := by
    intro e hee
    rw [he e hee]
    exact hv
  simp only [hread, hn, hj2]
  unfold PersistentNode.read
  rw [hdt, hpt, hf, hm]
  by_cases htag : tag ∈ n.dt ++ n.pt
  · rw [if_pos htag, if_pos htag, readLoop_append_gt tag v ext hx]
  · rw [if_neg htag, if_neg htag]

/-! ### Generic heap-effect predicate for whole operations

An operation may perform writes at more than one stamp (the off-end
fallback re-reads the clock), so the per-write effect is generalised to an
arbitrary predicate on stamps. -/

def HEff (P : Nat → Prop) (h h2 : Heap) : Prop :=
  h.length ≤ h2.length ∧
  (∀ j n, h.get? j = some n → ∃ n2 ext,
      h2.get? j = some n2 ∧ n2.p = n.p ∧ n2.dt = n.dt ∧ n2.pt = n.pt ∧
      n2.fields = n.fields ∧ n2.mods = n.mods ++ ext ∧ ∀ e ∈ ext, P e.1) ∧
  (∀ j n2, h.length ≤ j → h2.get? j = some n2 → ∀ e ∈ n2.mods, P e.1)

theorem WEff.hEff {now : Nat} {h h2 : Heap} (w : WEff now h h2)
    {P : Nat → Prop} (hP : P now) : HEff P h h2 := by
  obtain ⟨wl, wo, wn⟩ := w
  refine ⟨wl, ?_, ?_⟩
  · intro j n hj
    obtain ⟨n2, ext, hj2, hp, hdt, hpt, hf, hm, he⟩ := wo j n hj
    exact ⟨n2, ext, hj2, hp, hdt, hpt, hf, hm, fun e hee => (he e hee) ▸ hP⟩
  · intro j n2 hlen hj2 e hee
    exact (wn j n2 hlen hj2 e hee) ▸ hP

theorem HEff.mono {P Q : Nat → Prop} {h h2 : Heap} (w : HEff P h h2)
    (hPQ : ∀ t, P t → Q t) : HEff Q h h2 := by
  obtain ⟨wl, wo, wn⟩ := w
  refine ⟨wl, ?_, ?_⟩
  · intro j n hj
    obtain ⟨n2, ext, hj2, hp, hdt, hpt, hf, hm, he⟩ := wo j n hj
    exact ⟨n2, ext, hj2, hp, hdt, hpt, hf, hm, fun e hee => hPQ _ (he e hee)⟩
  · intro j n2 hlen hj2 e hee
    exact hPQ _ (wn j n2 hlen hj2 e hee)

theorem HEff.heff_refl (P : Nat → Prop) (h : Heap) : HEff P h h := by
  refine ⟨Nat.le_refl _, ?_, ?_⟩
  · intro j n hj
    exact ⟨n, [], hj, rfl, rfl, rfl, rfl, by simp, by simp⟩
  · intro j n2 hlen hj
    rw [List.get?_eq_none.2 hlen] at hj
    cases hj

theorem HEff.heff_trans {P : Nat → Prop} {h1 h2 h3 : Heap}
    (a : HEff P h1 h2) (b : HEff P h2 h3) : HEff P h1 h3 := by
  obtain ⟨al, ao, an⟩ := a
  obtain ⟨bl, bo, bn⟩ := b
  refine ⟨Nat.le_trans al bl, ?_, ?_⟩
  · intro j n hj
    obtain ⟨n2, ext, hj2, hp, hdt, hpt, hf, hm, he⟩ := ao j n hj
    obtain ⟨n3, ext2, hj3, hp2, hdt2, hpt2, hf2, hm2, he2⟩ := bo j n2 hj2
    refine ⟨n3, ext ++ ext2, hj3, hp2.trans hp, hdt2.trans hdt,
      hpt2.trans hpt, hf2.trans hf, by rw [hm2, hm, List.append_assoc], ?_⟩
    intro e he3
    rcases List.mem_append.1 he3 with hh | hh
    · exact he e hh
    · exact he2 e hh
  · intro j n3 hlen hj3
    by_cases hcase : j < h2.length
    · obtain ⟨n2, hn2⟩ : ∃ n2, h2.get? j = some n2 := by
        cases hx : h2.get? j with
        | none => exact absurd (List.get?_eq_none.1 hx) (Nat.not_le.2 hcase)
        | some y => exact ⟨y, rfl⟩
      have hstamp := an j n2 hlen hn2
      obtain ⟨n3x, ext2, hj3x, _, _, _, _, hm2, he2⟩ := bo j n2 hn2
      rw [hj3x] at hj3
      cases hj3
      intro e he3
      rw [hm2] at he3
      rcases List.mem_append.1 he3 with hh | hh
      · exact hstamp e hh
      · exact he2 e hh
    · exact bn j n3 (Nat.le_of_not_lt hcase) hj3

theorem HEff.heff_set_sameShape {P : Nat → Prop} {h : Heap} {j : Nat}
    {n n2 : PersistentNode} (hj : h.get? j = some n) (hp : n2.p = n.p)
    (hdt : n2.dt = n.dt) (hpt : n2.pt = n.pt) (hf : n2.fields = n.fields)
    (hm : n2.mods = n.mods) : HEff P h (h.set j n2) := by
  have hjl : j < h.length := by
    by_contra hc
    rw [List.get?_eq_none.2 (Nat.le_of_not_lt hc)] at hj
    cases hj
  refine ⟨by rw [List.length_set], ?_, ?_⟩
  · intro q m hq
    by_cases hqj : q = j
    · subst hqj
      have hmn : m = n := by rw [hj] at hq; cases hq; rfl
      subst hmn
      refine ⟨n2, [], List.get?_set_eq_of_lt _ hjl, hp, hdt, hpt, hf,
        by simp [hm], by simp⟩
    · refine ⟨m, [], ?_, rfl, rfl, rfl, rfl, by simp, by simp⟩
      rw [List.get?_set_ne _ _ (fun hc => hqj hc.symm)]
      exact hq
  · intro q m hlen hq
    rw [List.get?_set_ne _ _ (fun hc => absurd hjl (by omega))] at hq
    rw [List.get?_eq_none.2 hlen] at hq
    cases hq

theorem HEff.heff_alloc {P : Nat → Prop} {h : Heap} {nn : PersistentNode}
    (hm : nn.mods = []) : HEff P h (h ++ [nn]) := by
  refine ⟨by simp, ?_, ?_⟩
  · intro j n hj
    have hjl : j < h.length := by
      by_contra hc
      rw [List.get?_eq_none.2 (Nat.le_of_not_lt hc)] at hj
      cases hj
    exact ⟨n, [], by rw [List.get?_append hjl, hj], rfl, rfl, rfl, rfl,
      by simp, by simp⟩
  · intro j n2 hlen hj
    rw [List.get?_append_right hlen] at hj
    cases hx : j - h.length with
    | zero =>
      rw [hx] at hj
      cases hj
      rw [hm]
      intro e hee
      cases hee
    | succ q =>
      rw [hx] at hj
      simp at hj

/-! ### Bounded logs -/

/-- The log-capacity invariant: no node ever holds more than `2p + 1`
entries. -/
def LogBound (h : Heap) : Prop := ∀ n ∈ h, n.mods.length ≤ 2 * n.p + 1

theorem LogBound.lb_set {h : Heap} {j : Nat} {n2 : PersistentNode}
    (hb : LogBound h) (hn : n2.mods.length ≤ 2 * n2.p + 1) :
    LogBound (h.set j n2) := by
  intro m hm
  rcases List.mem_or_eq_of_mem_set hm with hh | hh
  · exact hb m hh
  · rw [hh]
    exact hn

theorem LogBound.lb_alloc {h : Heap} {nn : PersistentNode} (hb : LogBound h)
    (hn : nn.mods.length ≤ 2 * nn.p + 1) : LogBound (h ++ [nn]) := by
  intro m hm
  rcases List.mem_append.1 hm with hh | hh
  · exact hb m hh
  · rw [List.mem_singleton] at hh
    rw [hh]
    exact hn

/-- Log capacity is preserved by every engine step: the non-split branch
only appends when the log still has room, and every other heap change
leaves logs alone or creates an empty one. -/
theorem engineStep_logBound : ∀ fuel : Nat, ∀ h : Heap, ∀ t : WTask,
    LogBound h → LogBound (engineStep fuel h t).heap := by
  intro fuel
  induction fuel with
  | zero =>
    intro h t hb
    rw [engineStep]
    exact hb
  | succ f ih =>
    intro h t hb
    cases t with
    | wr i now var val =>
      cases hg : h.get? i with
      | none =>
        have hx : writeNode (f + 1) h i now var val = .err .badRef h :=
          writeNode_missing f now var val hg
        show LogBound (writeNode (f + 1) h i now var val).heap
        rw [hx]
        exact hb
      | some n =>
        show LogBound (writeNode (f + 1) h i now var val).heap
        by_cases hvar : var ∈ n.dt ++ n.pt
        · by_cases hlen : n.mods.length ≤ 2 * n.p
          · rw [writeNode_nonsplit f now var val hg hvar hlen]
            refine hb.lb_set ?_
            simp only [List.length_append, List.length_cons, List.length_nil]
            omega
          · rw [writeNode_split f now var val hg hvar hlen]
            have hb1 : LogBound (h ++ [splitNode n var val]) :=
              hb.lb_alloc (by simp [splitNode])
            have hb2 : LogBound (setBackTargets f (h ++ [splitNode n var val])
                (splitFields n var val) h.length i n.pt).heap :=
              ih (h ++ [splitNode n var val])
                (.targets (splitFields n var val) h.length i n.pt) hb1
            cases hsb : setBackTargets f (h ++ [splitNode n var val])
                (splitFields n var val) h.length i n.pt with
            | err e h2 =>
              rw [hsb] at hb2
              exact hb2
            | ok u h2 =>
              rw [hsb] at hb2
              have hb3 : LogBound (cascadeAll f h2 h.length now n.pt).heap :=
                ih h2 (.cascade h.length now n.pt) hb2
              exact hb3
        · rw [writeNode_badTag f now var val hg hvar]
          exact hb
    | targets nf newId oldId ptrs =>
      cases ptrs with
      | nil =>
        rw [engineStep]
        exact hb
      | cons ptr rest =>
        rw [engineStep]
        split
        next j hnf =>
          split
          next => exact hb
          next tn hg =>
            split
            next => exact hb
            next tn2 hsb =>
              obtain ⟨hp, _, _, _, hm⟩ := setBack_shape hsb
              have hn2 : tn2.mods.length ≤ 2 * tn2.p + 1 := by
                rw [hm, hp]
                exact hb tn (List.get?_mem hg)
              exact ih (h.set j tn2) (.targets nf newId oldId rest)
                (hb.lb_set hn2)
        next x hx => exact hb
    | cascade newId now ptrs =>
      cases ptrs with
      | nil =>
        rw [engineStep]
        exact hb
      | cons ptr rest =>
        rw [engineStep]
        have hb1 := ih h (.rewire
          (match h.get? newId with | some nn => nn.back ptr | none => [])
          now ptr newId) hb
        cases hcl : engineStep f h (.rewire
            (match h.get? newId with | some nn => nn.back ptr | none => [])
            now ptr newId) with
        | err e h2 =>
          rw [hcl] at hb1
          exact hb1
        | ok u h2 =>
          rw [hcl] at hb1
          exact ih h2 (.cascade newId now rest) hb1
    | rewire ys now ptr newId =>
      cases ys with
      | nil =>
        rw [engineStep]
        exact hb
      | cons y rest =>
        rw [engineStep]
        have hb1 := ih h (.wr y now ptr (some (Val.ref newId))) hb
        cases hw : engineStep f h (.wr y now ptr (some (Val.ref newId))) with
        | err e h2 =>
          rw [hw] at hb1
          exact hb1
        | ok u h2 =>
          rw [hw] at hb1
          exact ih h2 (.rewire rest now ptr newId) hb1

theorem writeNode_logBound {f : Nat} (h : Heap) (i now : Nat) (var : String)
    (val : Option Val) (hb : LogBound h) :
    LogBound (writeNode f h i now var val).heap :=
  engineStep_logBound f h (.wr i now var val) hb

theorem read_returns_most_recent_visible_entry_witness :
    ("value" ∈ c1Node.dt ++ c1Node.pt) ∧
      c1Node.mods.Pairwise (fun a b => a.1 ≤ b.1) ∧
      c1Node.read "value" 3 = .ok (specRead (c1Node.fields "value") "value" 3 c1Node.mods) ∧
      c1Node.read "value" 3 = .ok (some (Val.intV 7)) :=
  ⟨by decide, by decide,
    read_returns_most_recent_visible_entry c1Node "value" 3 (by decide) (by decide),
    by decide⟩

/-- The combined bookkeeping one operation does to the object: the clock
never goes backwards, the heap change is an `HEff` whose stamps lie in
`[old ts, new ts)`, and log capacity is preserved. -/
def OpFrame (L : LinkedList) (r : LR) : Prop :=
  L.ts ≤ r.state.ts ∧
  HEff (fun t => L.ts ≤ t ∧ t < r.state.ts) L.heap r.state.heap ∧
  (LogBound L.heap → LogBound r.state.heap)

theorem writeNode_lb_ok {f : Nat} {h h2 : Heap} {i now : Nat} {var : String}
    {val : Option Val} {u : Unit} (hw : writeNode f h i now var val = .ok u h2)
    (hb : LogBound h) : LogBound h2 := by
  have hx : LogBound (writeNode f h i now var val).heap :=
    engineStep_logBound f h (.wr i now var val) hb
  rw [hw] at hx
  exact hx

theorem writeNode_lb_err {f : Nat} {h h2 : Heap} {i now : Nat} {var : String}
    {val : Option Val} {e : Err} (hw : writeNode f h i now var val = .err e h2)
    (hb : LogBound h) : LogBound h2 := by
  have hx : LogBound (writeNode f h i now var val).heap :=
    engineStep_logBound f h (.wr i now var val) hb
  rw [hw] at hx
  exact hx

theorem mkNode_lb (dt pt : List String) (p : Nat) :
    (mkNode dt pt p).mods.length ≤ 2 * (mkNode dt pt p).p + 1 := by
  simp [mkNode]

theorem appendL_opFrame (f : Nat) (L : LinkedList) (v : Int) :
    OpFrame L (appendL f L v) := by
  unfold OpFrame
  simp only [appendL, tickL]
  split
  next e hF =>
    exact ⟨Nat.le_succ _, HEff.heff_refl _ _, fun hb => hb⟩
  next cursor hF =>
    split
    next e h2 hw =>
      refine ⟨Nat.le_succ _, ?_, fun hb => ?_⟩
      · exact (HEff.heff_alloc rfl).heff_trans
          ((writeNode_weff_err hw).hEff ⟨Nat.le_refl _, Nat.lt_succ_self _⟩)
      · exact writeNode_lb_err hw (hb.lb_alloc (mkNode_lb _ _ _))
    next u h2 hw =>
      split
      next hg =>
        refine ⟨Nat.le_succ _, ?_, fun hb => ?_⟩
        · exact (HEff.heff_alloc rfl).heff_trans
            ((writeNode_weff_ok hw).hEff ⟨Nat.le_refl _, Nat.lt_succ_self _⟩)
        · exact writeNode_lb_ok hw (hb.lb_alloc (mkNode_lb _ _ _))
      next nn hg =>
        split
        next e hsb =>
          refine ⟨Nat.le_succ _, ?_, fun hb => ?_⟩
          · exact (HEff.heff_alloc rfl).heff_trans
              ((writeNode_weff_ok hw).hEff ⟨Nat.le_refl _, Nat.lt_succ_self _⟩)
          · exact writeNode_lb_ok hw (hb.lb_alloc (mkNode_lb _ _ _))
        next nn2 hsb =>
          obtain ⟨hp, hdt, hpt, hf2, hm⟩ := setBack_shape hsb
          have hchain : HEff (fun t => L.ts ≤ t ∧ t < L.ts + 1) L.heap
              ((writeNode f (L.heap ++ [mkNode ["value"] ["next_ptr"] 1])
                (List.length L.heap) L.ts "value" (some (Val.intV v))).heap.set
                (List.length L.heap) nn2) := by
            rw [hw]
            exact ((HEff.heff_alloc rfl).heff_trans
              ((writeNode_weff_ok hw).hEff ⟨Nat.le_refl _, Nat.lt_succ_self _⟩)).heff_trans
              (HEff.heff_set_sameShape hg hp hdt hpt hf2 hm)
          have hlb2 : LogBound L.heap → LogBound (h2.set (List.length L.heap) nn2) := by
            intro hb
            refine (writeNode_lb_ok hw (hb.lb_alloc (mkNode_lb _ _ _))).lb_set ?_
            rw [hm, hp]
            exact (writeNode_lb_ok hw (hb.lb_alloc (mkNode_lb _ _ _))) nn (List.get?_mem hg)
          split
          next e h4 hw2 =>
            refine ⟨Nat.le_succ _, ?_, fun hb => ?_⟩
            · rw [hw] at hchain
              exact hchain.heff_trans
                ((writeNode_weff_err hw2).hEff ⟨Nat.le_refl _, Nat.lt_succ_self _⟩)
            · exact writeNode_lb_err hw2 (hlb2 hb)
          next u2 h4 hw2 =>
            refine ⟨Nat.le_succ _, ?_, fun hb => ?_⟩
            · rw [hw] at hchain
              exact hchain.heff_trans
                ((writeNode_weff_ok hw2).hEff ⟨Nat.le_refl _, Nat.lt_succ_self _⟩)
            · exact writeNode_lb_ok hw2 (hlb2 hb)

theorem setRootValue_opFrame (f : Nat) (L : LinkedList) (v : Int) :
    OpFrame L (setRootValue f L v) := by
  unfold OpFrame
  simp only [setRootValue, tickL]
  split
  next u h hw =>
    refine ⟨Nat.le_succ _, ?_, fun hb => ?_⟩
    · exact (writeNode_weff_ok hw).hEff ⟨Nat.le_refl _, Nat.lt_succ_self _⟩
    · exact writeNode_lb_ok hw hb
  next e h hw =>
    refine ⟨Nat.le_succ _, ?_, fun hb => ?_⟩
    · exact (writeNode_weff_err hw).hEff ⟨Nat.le_refl _, Nat.lt_succ_self _⟩
    · exact writeNode_lb_err hw hb

theorem modifyL_opFrame (f : Nat) (L : LinkedList) (i : Nat) (v : Int) :
    OpFrame L (modifyL f L i v) := by
  unfold OpFrame
  simp only [modifyL, tickL]
  split
  next e hH =>
    exact ⟨Nat.le_succ _, HEff.heff_refl _ _, fun hb => hb⟩
  next hH =>
    obtain ⟨h1, h2, h3⟩ := appendL_opFrame f { heap := L.heap, ts := L.ts + 1 } v
    exact ⟨Nat.le_trans (Nat.le_succ _) h1,
      h2.mono (fun t ht => ⟨Nat.le_trans (Nat.le_succ _) ht.1, ht.2⟩), h3⟩
  next c hH =>
    split
    next e h hw =>
      refine ⟨Nat.le_succ _, ?_, fun hb => ?_⟩
      · exact (writeNode_weff_err hw).hEff ⟨Nat.le_refl _, Nat.lt_succ_self _⟩
      · exact writeNode_lb_err hw hb
    next u h hw =>
      refine ⟨Nat.le_succ _, ?_, fun hb => ?_⟩
      · exact (writeNode_weff_ok hw).hEff ⟨Nat.le_refl _, Nat.lt_succ_self _⟩
      · exact writeNode_lb_ok hw hb

theorem tick_opFrame (L : LinkedList) : OpFrame L (.ok (tickL L).2) :=
  ⟨Nat.le_succ _, HEff.heff_refl _ _, fun hb => hb⟩

theorem insertL_opFrame (f : Nat) (L : LinkedList) (i : Nat) (v : Int) :
    OpFrame L (insertL f L i v) := by
  unfold OpFrame
  simp only [insertL, tickL]
  split
  next e hH =>
    exact ⟨Nat.le_succ _, HEff.heff_refl _ _, fun hb => hb⟩
  next hH =>
    obtain ⟨h1, h2, h3⟩ := appendL_opFrame f { heap := L.heap, ts := L.ts + 1 } v
    exact ⟨Nat.le_trans (Nat.le_succ _) h1,
      h2.mono (fun t ht => ⟨Nat.le_trans (Nat.le_succ _) ht.1, ht.2⟩), h3⟩
  next c hH =>
    split
    next e hr =>
      exact ⟨Nat.le_succ _, HEff.heff_refl _ _, fun hb => hb⟩
    next nxt hr =>
      split
      next e h2 hw1 =>
        refine ⟨Nat.le_succ _, ?_, fun hb => ?_⟩
        · exact (HEff.heff_alloc rfl).heff_trans
            ((writeNode_weff_err hw1).hEff ⟨Nat.le_refl _, Nat.lt_succ_self _⟩)
        · exact writeNode_lb_err hw1 (hb.lb_alloc (mkNode_lb _ _ _))
      next u h2 hw1 =>
        have E1 : HEff (fun t => L.ts ≤ t ∧ t < L.ts + 1) L.heap h2 :=
          (HEff.heff_alloc rfl).heff_trans
            ((writeNode_weff_ok hw1).hEff ⟨Nat.le_refl _, Nat.lt_succ_self _⟩)
        have L1 : LogBound L.heap → LogBound h2 := fun hb =>
          writeNode_lb_ok hw1 (hb.lb_alloc (mkNode_lb _ _ _))
        split
        next e h3 hw2 =>
          refine ⟨Nat.le_succ _, ?_, fun hb => ?_⟩
          · exact E1.heff_trans
              ((writeNode_weff_err hw2).hEff ⟨Nat.le_refl _, Nat.lt_succ_self _⟩)
          · exact writeNode_lb_err hw2 (L1 hb)
        next u2 h3 hw2 =>
          have E2 : HEff (fun t => L.ts ≤ t ∧ t < L.ts + 1) L.heap h3 :=
            E1.heff_trans
              ((writeNode_weff_ok hw2).hEff ⟨Nat.le_refl _, Nat.lt_succ_self _⟩)
          have L2 : LogBound L.heap → LogBound h3 := fun hb =>
            writeNode_lb_ok hw2 (L1 hb)
          split
          next e h4 hw3 =>
            refine ⟨Nat.le_succ _, ?_, fun hb => ?_⟩
            · exact E2.heff_trans
                ((writeNode_weff_err hw3).hEff ⟨Nat.le_refl _, Nat.lt_succ_self _⟩)
            · exact writeNode_lb_err hw3 (L2 hb)
          next u3 h4 hw3 =>
            have E3 : HEff (fun t => L.ts ≤ t ∧ t < L.ts + 1) L.heap h4 :=
              E2.heff_trans
                ((writeNode_weff_ok hw3).hEff ⟨Nat.le_refl _, Nat.lt_succ_self _⟩)
            have L3 : LogBound L.heap → LogBound h4 := fun hb =>
              writeNode_lb_ok hw3 (L2 hb)
            split
            next => exact ⟨Nat.le_succ _, E3, L3⟩
            next k => exact ⟨Nat.le_succ _, E3, L3⟩
            next nj =>
              split
              next hg => exact ⟨Nat.le_succ _, E3, L3⟩
              next nxn hg =>
                split
                next e hsb => exact ⟨Nat.le_succ _, E3, L3⟩
                next nxn2 hsb =>
                  obtain ⟨hp, hdt, hpt, hf2, hm⟩ := setBack_shape hsb
                  have E4 : HEff (fun t => L.ts ≤ t ∧ t < L.ts + 1) L.heap
                      (h4.set nj nxn2) :=
                    E3.heff_trans (HEff.heff_set_sameShape hg hp hdt hpt hf2 hm)
                  have L4 : LogBound L.heap → LogBound (h4.set nj nxn2) :=
                    fun hb => (L3 hb).lb_set
                      (by rw [hm, hp]; exact (L3 hb) nxn (List.get?_mem hg))
                  split
                  next hg2 => exact ⟨Nat.le_succ _, E4, L4⟩
                  next nn hg2 =>
                    split
                    next e hsb2 => exact ⟨Nat.le_succ _, E4, L4⟩
                    next nn2 hsb2 =>
                      obtain ⟨hp2, hdt2, hpt2, hf3, hm2⟩ := setBack_shape hsb2
                      refine ⟨Nat.le_succ _, ?_, fun hb => ?_⟩
                      · exact E4.heff_trans
                          (HEff.heff_set_sameShape hg2 hp2 hdt2 hpt2 hf3 hm2)
                      · exact (L4 hb).lb_set
                          (by rw [hm2, hp2]
                              exact (L4 hb) nn (List.get?_mem hg2))

theorem deleteL_opFrame (f : Nat) (L : LinkedList) (i : Nat) :
    OpFrame L (deleteL f L i) := by
  unfold OpFrame
  simp only [deleteL, tickL]
  split
  next hi =>
    exact ⟨Nat.le_refl _, HEff.heff_refl _ _, fun hb => hb⟩
  next hi =>
    split
    next e hH =>
      exact ⟨Nat.le_succ _, HEff.heff_refl _ _, fun hb => hb⟩
    next hH =>
      exact ⟨Nat.le_succ _, HEff.heff_refl _ _, fun hb => hb⟩
    next c hH =>
      split
      next e hr =>
        exact ⟨Nat.le_succ _, HEff.heff_refl _ _, fun hb => hb⟩
      next hr =>
        exact ⟨Nat.le_succ _, HEff.heff_refl _ _, fun hb => hb⟩
      next k hr =>
        exact ⟨Nat.le_succ _, HEff.heff_refl _ _, fun hb => hb⟩
      next nj hr =>
        split
        next e hr2 =>
          exact ⟨Nat.le_succ _, HEff.heff_refl _ _, fun hb => hb⟩
        next nxn hr2 =>
          split
          next e h hw =>
            refine ⟨Nat.le_succ _, ?_, fun hb => ?_⟩
            · exact (writeNode_weff_err hw).hEff
                ⟨Nat.le_refl _, Nat.lt_succ_self _⟩
            · exact writeNode_lb_err hw hb
          next u h hw =>
            have E1 : HEff (fun t => L.ts ≤ t ∧ t < L.ts + 1) L.heap h :=
              (writeNode_weff_ok hw).hEff ⟨Nat.le_refl _, Nat.lt_succ_self _⟩
            have L1 : LogBound L.heap → LogBound h := fun hb =>
              writeNode_lb_ok hw hb
            split
            next => exact ⟨Nat.le_succ _, E1, L1⟩
            next k => exact ⟨Nat.le_succ _, E1, L1⟩
            next kk =>
              split
              next hg => exact ⟨Nat.le_succ _, E1, L1⟩
              next kn hg =>
                split
                next e hsb => exact ⟨Nat.le_succ _, E1, L1⟩
                next kn2 hsb =>
                  obtain ⟨hp, hdt, hpt, hf2, hm⟩ := setBack_shape hsb
                  refine ⟨Nat.le_succ _, ?_, fun hb => ?_⟩
                  · exact E1.heff_trans (HEff.heff_set_sameShape hg hp hdt hpt hf2 hm)
                  · exact (L1 hb).lb_set
                      (by rw [hm, hp]; exact (L1 hb) kn (List.get?_mem hg))

theorem runOp_opFrame (f : Nat) (L : LinkedList) (o : Op) :
    OpFrame L (runOp f L o) := by
  cases o with
  | seed v => exact setRootValue_opFrame f L v
  | app v => exact appendL_opFrame f L v
  | modify i v => exact modifyL_opFrame f L i v
  | insert i v => exact insertL_opFrame f L i v
  | delete i => exact deleteL_opFrame f L i
  | tick => exact tick_opFrame L


/-- Reads below every stamp the operation used are unchanged for
pre-existing nodes. -/
theorem HEff.heff_read_lt {P : Nat → Prop} {h h2 : Heap} (w : HEff P h h2)
    {v : Nat} (hv : ∀ t, P t → v < t) (j : Nat) (tag : String)
    (hj : j < h.length) : hread h2 j tag v = hread h j tag v := by
  obtain ⟨n, hn⟩ : ∃ n, h.get? j = some n := by
    cases hx : h.get? j with
    | none => exact absurd (List.get?_eq_none.1 hx) (Nat.not_le.2 hj)
    | some y => exact ⟨y, rfl⟩
  obtain ⟨n2, ext, hj2, hp, hdt, hpt, hf, hm, he⟩ := w.2.1 j n hn
  have hx : ∀ e ∈ ext, v < e.1 := fun e hee => hv e.1 (he e hee)
  simp only [hread, hn, hj2]
  unfold PersistentNode.read
  rw [hdt, hpt, hf, hm]
  by_cases htag : tag ∈ n.dt ++ n.pt
  · rw [if_pos htag, if_pos htag, readLoop_append_gt tag v ext hx]
  · rw [if_neg htag, if_neg htag]

/-- C4 core: every operation, on every list state, leaves every read of
every pre-existing node at every version strictly before the operation's
version stamp unchanged — splits and cascaded rewrites included, and also
on the paths where the operation raises. -/
theorem runOp_preserves_earlier_reads (f : Nat) (L : LinkedList) (o : Op)
    (j : Nat) (tag : String) (v : Nat) (hj : j < L.heap.length)
    (hv : v < L.ts) :
    hread ((runOp f L o).state).heap j tag v = hread L.heap j tag v :=
  (runOp_opFrame f L o).2.1.heff_read_lt
    (fun t ht => Nat.lt_of_lt_of_le hv ht.1) j tag hj

/-! ### Clock-dominance of logged versions, and reachable states -/

/-- Every logged version is strictly below the clock counter. -/
def VersBound (L : LinkedList) : Prop :=
  ∀ n ∈ L.heap, ∀ e ∈ n.mods, e.1 < L.ts

theorem runOp_versBound (f : Nat) (L : LinkedList) (o : Op)
    (hv : VersBound L) : VersBound (runOp f L o).state := by
  obtain ⟨hts, hH, _⟩ := runOp_opFrame f L o
  intro n hn e he
  obtain ⟨j, hj⟩ := List.get?_of_mem hn
  by_cases hcase : j < L.heap.length
  · obtain ⟨m, hm⟩ : ∃ m, L.heap.get? j = some m := by
      cases hx : L.heap.get? j with
      | none => exact absurd (List.get?_eq_none.1 hx) (Nat.not_le.2 hcase)
      | some y => exact ⟨y, rfl⟩
    obtain ⟨n2, ext, hj2, _, _, _, _, hmods, hext⟩ := hH.2.1 j m hm
    rw [hj] at hj2
    cases hj2
    rw [hmods] at he
    rcases List.mem_append.1 he with hh | hh
    · exact Nat.lt_of_lt_of_le (hv m (List.get?_mem hm) e hh) hts
    · exact (hext e hh).2
  · exact (hH.2.2 j n (Nat.le_of_not_lt hcase) hj e he).2

theorem reach_versBound {L : LinkedList} (hR : Reach L) : VersBound L := by
  induction hR with
  | init =>
    intro n hn e he
    rw [show mkLinkedList.heap = [mkNode ["value"] ["next_ptr"] 1] from rfl,
      List.mem_singleton] at hn
    rw [hn] at he
    cases he
  | step f o _ _ ih => exact runOp_versBound f _ o ih

theorem reach_logBound {L : LinkedList} (hR : Reach L) : LogBound L.heap := by
  induction hR with
  | init =>
    intro n hn
    rw [show mkLinkedList.heap = [mkNode ["value"] ["next_ptr"] 1] from rfl,
      List.mem_singleton] at hn
    rw [hn]
    simp [mkNode]
  | step f o _ _ ih => exact ((runOp_opFrame f _ o).2.2) ih

/-- Two query versions that compare equally against every logged version of
a heap read identically everywhere in it. -/
theorem hread_congr {h : Heap} {v w : Nat}
    (hcmp : ∀ n ∈ h, ∀ e ∈ n.mods, (v < e.1 ↔ w < e.1))
    (j : Nat) (tag : String) : hread h j tag v = hread h j tag w := by
  cases hx : h.get? j with
  | none => simp only [hread, hx]
  | some n =>
    simp only [hread, hx]
    unfold PersistentNode.read
    by_cases htag : tag ∈ n.dt ++ n.pt
    · rw [if_pos htag, if_pos htag,
        readLoop_congr tag v w n.mods _
          (fun e he => hcmp n (List.get?_mem hx) e he)]
    · rw [if_neg htag, if_neg htag]

/-- Rendering only looks at reads, so the same comparison condition makes
two renderings agree. -/
theorem strAux_congr {h : Heap} {v w : Nat}
    (hcmp : ∀ n ∈ h, ∀ e ∈ n.mods, (v < e.1 ↔ w < e.1)) :
    ∀ (fuel cur : Nat) (acc : String),
      strAux fuel h v cur acc = strAux fuel h w cur acc := by
  intro fuel
  induction fuel with
  | zero => intro cur acc; rfl
  | succ f ih =>
    intro cur acc
    simp only [strAux]
    rw [hread_congr hcmp cur "value"]
    cases hread h cur "value" w with
    | error e => rfl
    | ok valv =>
      rw [hread_congr hcmp cur "next_ptr"]
      cases hread h cur "next_ptr" w with
      | error e => rfl
      | ok nxt =>
        cases nxt with
        | none => rfl
        | some x =>
          cases x with
          | intV k => rfl
          | ref j => exact ih j _

/-- Successful operation sequences land on reachable states. -/
theorem reach_runOps (f : Nat) : ∀ (ops : List Op) (L : LinkedList),
    Reach L → (runOps f L ops).isOk = true →
    Reach (runOps f L ops).state := by
  intro ops
  induction ops with
  | nil =>
    intro L hR _
    exact hR
  | cons o rest ih =>
    intro L hR hok
    rw [runOps] at hok ⊢
    cases hro : runOp f L o with
    | ok L2 =>
      rw [hro] at hok
      simp only [LR.andThen] at hok ⊢
      have hR2 : Reach L2 := by
        have hx := Reach.step f o hR (by rw [hro]; rfl)
        rw [hro] at hx
        exact hx
      exact ih L2 hR2 hok
    | err e L2 =>
      rw [hro] at hok
      simp only [LR.andThen, LR.isOk] at hok
      exact Bool.noConfusion hok

/-- C4 — For every pre-existing node, every tag, and every version issued
strictly before an operation's version stamp, `read(tag, v)` on that node
is the same before and after the operation, splits and cascaded rewrites
included: log entries are never removed or altered (the old log stays a
prefix of the new one), so the node an old version traverses yields
identical results whether queried before or after the operation. -/
theorem mutating_ops_preserve_prior_versions (f : Nat) (L : LinkedList)
    (o : Op) (j : Nat) (n : PersistentNode) (hj : L.heap.get? j = some n) :
    (∃ n2 ext, ((runOp f L o).state).heap.get? j = some n2 ∧
        n2.mods = n.mods ++ ext) ∧
    ∀ tag v, v < L.ts →
      hread ((runOp f L o).state).heap j tag v = hread L.heap j tag v := by
  have hjl : j < L.heap.length := by
    by_contra hc
    rw [List.get?_eq_none.2 (Nat.le_of_not_lt hc)] at hj
    cases hj
  constructor
  · obtain ⟨n2, ext, hj2, _, _, _, _, hm, _⟩ :=
      (runOp_opFrame f L o).2.1.2.1 j n hj
    exact ⟨n2, ext, hj2, hm⟩
  · intro tag v hv
    exact runOp_preserves_earlier_reads f L o j tag v hjl hv

/-- The list after `set_root_value(1)` on a fresh list, and its root node,
used as concrete inputs below. -/
def seededList : LinkedList := (runOps 50 mkLinkedList [.seed 1]).state

def seededRoot : PersistentNode :=
  { p := 1, dt := ["value"], pt := ["next_ptr"],
    fields := fun _ => none,
    back := fun _ => [],
    mods := [(0, "value", some (Val.intV 1))] }

theorem mutating_ops_preserve_prior_versions_witness :
    seededList.heap.get? 0 = some seededRoot ∧
    0 < seededList.ts ∧
    ((∃ n2 ext, ((runOp 50 seededList (.app 2)).state).heap.get? 0 = some n2 ∧
        n2.mods = seededRoot.mods ++ ext) ∧
      ∀ tag v, v < seededList.ts →
        hread ((runOp 50 seededList (.app 2)).state).heap 0 tag v =
          hread seededList.heap 0 tag v) :=
  ⟨rfl, by decide,
    mutating_ops_preserve_prior_versions 50 seededList (.app 2) 0 seededRoot rfl⟩

/-- C8 — `renderCurrent()` (`__str__`, which renders at the current value
of `_timestamp`) returns exactly the same string as `renderAt(v)` where `v`
is the last version the clock issued (`_timestamp - 1`), on every reachable
list on which at least one version has been issued: no logged version can
equal the unissued current counter value, so both reads see the same
entries. -/
theorem renderCurrent_eq_renderAt_last_issued {L : LinkedList}
    (hR : Reach L) (hts : 1 ≤ L.ts) (fuel : Nat) :
    strCurrent fuel L = strAt fuel L (L.ts - 1) := by
  have hv := reach_versBound hR
  unfold strCurrent strAt
  refine strAux_congr (fun n hn e he => ?_) fuel 0 ""
  have hx := hv n hn e he
  omega

theorem renderCurrent_eq_renderAt_last_issued_witness :
    1 ≤ seededList.ts ∧
      strCurrent 10 seededList = strAt 10 seededList (seededList.ts - 1) ∧
      strCurrent 10 seededList = some "1->END" :=
  ⟨by decide,
    renderCurrent_eq_renderAt_last_issued
      (reach_runOps 50 [.seed 1] mkLinkedList Reach.init (by decide))
      (by decide) 10,
    by decide⟩

/-! ### Read-your-writes -/

/-- C6 (amended) — read-your-writes holds whenever the write does not
split: if the node's log still has room (at most `2p` entries) and `now`
is no smaller than any logged version, then immediately after
`write(now, tag, x)` the same node reads `x` at `now`.  (On the split path
the written node's own log and baseline are untouched, so the property
fails there; see the counterexample.) -/
theorem read_your_writes_nonsplit (f : Nat) (h : Heap) (i now : Nat)
    (var : String) (val : Option Val) (n : PersistentNode)
    (hg : h.get? i = some n) (hvar : var ∈ n.dt ++ n.pt)
    (hroom : n.mods.length ≤ 2 * n.p) (hmax : ∀ e ∈ n.mods, e.1 ≤ now) :
    ∃ h2, writeNode (f + 1) h i now var val = .ok () h2 ∧
      hread h2 i var now = .ok val := by
  have hjl : i < h.length := by
    by_contra hc
    rw [List.get?_eq_none.2 (Nat.le_of_not_lt hc)] at hg
    cases hg
  refine ⟨_, writeNode_nonsplit f now var val hg hvar hroom, ?_⟩
  simp only [hread, List.get?_set_eq_of_lt _ hjl]
  unfold PersistentNode.read
  rw [if_pos hvar, readLoop_last var now val n.mods (n.fields var) hmax]

theorem read_your_writes_nonsplit_witness :
    seededList.heap.get? 0 = some seededRoot ∧
    ("value" ∈ seededRoot.dt ++ seededRoot.pt) ∧
    seededRoot.mods.length ≤ 2 * seededRoot.p ∧
    (∀ e ∈ seededRoot.mods, e.1 ≤ 1) ∧
    (∃ h2, writeNode 10 seededList.heap 0 1 "value" (some (Val.intV 5)) =
        .ok () h2 ∧ hread h2 0 "value" 1 = .ok (some (Val.intV 5))) :=
  ⟨rfl, by decide, by decide, by decide,
    read_your_writes_nonsplit 9 seededList.heap 0 1 "value"
      (some (Val.intV 5)) seededRoot rfl (by decide) (by decide) (by decide)⟩

/-- The reachable three-mod state used by the C6 counterexample: the root
log is full and its latest pointer value is node 1. -/
def c6State : LinkedList :=
  (runOps 50 mkLinkedList [.seed 1, .app 2, .modify 0 7]).state

/-- C6 counterexample — on a reachable node with a full log, a write at a
fresh stamp (no smaller than any logged version) returns successfully but
the node still reads its old value at that stamp, not the written one: the
split leaves the written node's own log and baseline untouched. -/
theorem read_your_writes_fails_on_split :
    (runOps 50 mkLinkedList [.seed 1, .app 2, .modify 0 7]).isOk = true ∧
    ((c6State.heap.get? 0).map (fun n => n.mods.map (fun e => e.1))) =
      some [0, 1, 2] ∧
    ((c6State.heap.get? 0).map (fun n => decide ("value" ∈ n.dt ++ n.pt))) =
      some true ∧
    (writeNode 50 c6State.heap 0 3 "value" (some (Val.intV 99))).isOk = true ∧
    hread (writeNode 50 c6State.heap 0 3 "value"
        (some (Val.intV 99))).heap 0 "value" 3 = .ok (some (Val.intV 7)) ∧
    ¬ hread (writeNode 50 c6State.heap 0 3 "value"
        (some (Val.intV 99))).heap 0 "value" 3 = .ok (some (Val.intV 99)) := by
  refine ⟨by decide, by decide, by decide, by decide, by decide, by decide⟩

/-! ### One clock tick and one stamp per operation -/

theorem appendL_exact_stamp (f : Nat) (L : LinkedList) (v : Int) :
    (appendL f L v).state.ts = L.ts + 1 ∧
    HEff (fun t => t = L.ts) L.heap (appendL f L v).state.heap := by
  simp only [appendL, tickL]
  split
  next e hF => exact ⟨rfl, HEff.heff_refl _ _⟩
  next cursor hF =>
    split
    next e h2 hw =>
      exact ⟨rfl, (HEff.heff_alloc rfl).heff_trans ((writeNode_weff_err hw).hEff rfl)⟩
    next u h2 hw =>
      have E1 : HEff (fun t => t = L.ts) L.heap h2 :=
        (HEff.heff_alloc rfl).heff_trans ((writeNode_weff_ok hw).hEff rfl)
      split
      next hg => exact ⟨rfl, E1⟩
      next nn hg =>
        split
        next e hsb => exact ⟨rfl, E1⟩
        next nn2 hsb =>
          obtain ⟨hp, hdt, hpt, hf2, hm⟩ := setBack_shape hsb
          have E2 : HEff (fun t => t = L.ts) L.heap (h2.set (List.length L.heap) nn2) :=
            E1.heff_trans (HEff.heff_set_sameShape hg hp hdt hpt hf2 hm)
          split
          next e h4 hw2 =>
            exact ⟨rfl, E2.heff_trans ((writeNode_weff_err hw2).hEff rfl)⟩
          next u2 h4 hw2 =>
            exact ⟨rfl, E2.heff_trans ((writeNode_weff_ok hw2).hEff rfl)⟩

theorem deleteL_exact_stamp (f : Nat) (L : LinkedList) (i : Nat)
    (hi : i ≠ 0) :
    (deleteL f L i).state.ts = L.ts + 1 ∧
    HEff (fun t => t = L.ts) L.heap (deleteL f L i).state.heap := by
  simp only [deleteL, tickL]
  rw [if_neg hi]
  split
  next e hH => exact ⟨rfl, HEff.heff_refl _ _⟩
  next hH => exact ⟨rfl, HEff.heff_refl _ _⟩
  next c hH =>
    split
    next e hr => exact ⟨rfl, HEff.heff_refl _ _⟩
    next hr => exact ⟨rfl, HEff.heff_refl _ _⟩
    next k hr => exact ⟨rfl, HEff.heff_refl _ _⟩
    next nj hr =>
      split
      next e hr2 => exact ⟨rfl, HEff.heff_refl _ _⟩
      next nxn hr2 =>
        split
        next e h hw =>
          exact ⟨rfl, (writeNode_weff_err hw).hEff rfl⟩
        next u h hw =>
          have E1 : HEff (fun t => t = L.ts) L.heap h :=
            (writeNode_weff_ok hw).hEff rfl
          split
          next => exact ⟨rfl, E1⟩
          next k => exact ⟨rfl, E1⟩
          next kk =>
            split
            next hg => exact ⟨rfl, E1⟩
            next kn hg =>
              split
              next e hsb => exact ⟨rfl, E1⟩
              next kn2 hsb =>
                obtain ⟨hp, hdt, hpt, hf2, hm⟩ := setBack_shape hsb
                exact ⟨rfl, E1.heff_trans (HEff.heff_set_sameShape hg hp hdt hpt hf2 hm)⟩

theorem modifyL_exact_stamp (f : Nat) (L : LinkedList) (i : Nat) (v : Int)
    (hnf : hops L.heap L.ts 0 i ≠ .offEnd) :
    (modifyL f L i v).state.ts = L.ts + 1 ∧
    HEff (fun t => t = L.ts) L.heap (modifyL f L i v).state.heap := by
  simp only [modifyL, tickL]
  split
  next e hH => exact ⟨rfl, HEff.heff_refl _ _⟩
  next hH => exact absurd hH hnf
  next c hH =>
    split
    next e h hw => exact ⟨rfl, (writeNode_weff_err hw).hEff rfl⟩
    next u h hw => exact ⟨rfl, (writeNode_weff_ok hw).hEff rfl⟩

theorem insertL_exact_stamp (f : Nat) (L : LinkedList) (i : Nat) (v : Int)
    (hnf : hops L.heap L.ts 0 i ≠ .offEnd) :
    (insertL f L i v).state.ts = L.ts + 1 ∧
    HEff (fun t => t = L.ts) L.heap (insertL f L i v).state.heap := by
  simp only [insertL, tickL]
  split
  next e hH => exact ⟨rfl, HEff.heff_refl _ _⟩
  next hH => exact absurd hH hnf
  next c hH =>
    split
    next e hr => exact ⟨rfl, HEff.heff_refl _ _⟩
    next nxt hr =>
      split
      next e h2 hw1 =>
        exact ⟨rfl, (HEff.heff_alloc rfl).heff_trans ((writeNode_weff_err hw1).hEff rfl)⟩
      next u h2 hw1 =>
        have E1 : HEff (fun t => t = L.ts) L.heap h2 :=
          (HEff.heff_alloc rfl).heff_trans ((writeNode_weff_ok hw1).hEff rfl)
        split
        next e h3 hw2 => exact ⟨rfl, E1.heff_trans ((writeNode_weff_err hw2).hEff rfl)⟩
        next u2 h3 hw2 =>
          have E2 : HEff (fun t => t = L.ts) L.heap h3 :=
            E1.heff_trans ((writeNode_weff_ok hw2).hEff rfl)
          split
          next e h4 hw3 => exact ⟨rfl, E2.heff_trans ((writeNode_weff_err hw3).hEff rfl)⟩
          next u3 h4 hw3 =>
            have E3 : HEff (fun t => t = L.ts) L.heap h4 :=
              E2.heff_trans ((writeNode_weff_ok hw3).hEff rfl)
            split
            next => exact ⟨rfl, E3⟩
            next k => exact ⟨rfl, E3⟩
            next nj =>
              split
              next hg => exact ⟨rfl, E3⟩
              next nxn hg =>
                split
                next e hsb => exact ⟨rfl, E3⟩
                next nxn2 hsb =>
                  obtain ⟨hp, hdt, hpt, hf2, hm⟩ := setBack_shape hsb
                  have E4 : HEff (fun t => t = L.ts) L.heap (h4.set nj nxn2) :=
                    E3.heff_trans (HEff.heff_set_sameShape hg hp hdt hpt hf2 hm)
                  split
                  next hg2 => exact ⟨rfl, E4⟩
                  next nn hg2 =>
                    split
                    next e hsb2 => exact ⟨rfl, E4⟩
                    next nn2 hsb2 =>
                      obtain ⟨hp2, hdt2, hpt2, hf3, hm2⟩ := setBack_shape hsb2
                      exact ⟨rfl,
                        E4.heff_trans (HEff.heff_set_sameShape hg2 hp2 hdt2 hpt2 hf3 hm2)⟩

/-- C7 (amended) — append, delete with nonzero index, and modify / insert
whose traversal does not run off the end advance the clock exactly once
(the timestamp after equals the timestamp before plus one, on success and
failure alike) and stamp every log entry they add — splits and cascades
included — with exactly the single version taken up front; the off-end
fallback of modify/insert instead re-enters append, taking a second fresh
stamp (see the counterexample). -/
theorem ops_single_stamp (f : Nat) (L : LinkedList) :
    (∀ v : Int, (appendL f L v).state.ts = L.ts + 1 ∧
      HEff (fun t => t = L.ts) L.heap (appendL f L v).state.heap) ∧
    (∀ i : Nat, i ≠ 0 → (deleteL f L i).state.ts = L.ts + 1 ∧
      HEff (fun t => t = L.ts) L.heap (deleteL f L i).state.heap) ∧
    (∀ (i : Nat) (v : Int), hops L.heap L.ts 0 i ≠ .offEnd →
      (modifyL f L i v).state.ts = L.ts + 1 ∧
      HEff (fun t => t = L.ts) L.heap (modifyL f L i v).state.heap) ∧
    (∀ (i : Nat) (v : Int), hops L.heap L.ts 0 i ≠ .offEnd →
      (insertL f L i v).state.ts = L.ts + 1 ∧
      HEff (fun t => t = L.ts) L.heap (insertL f L i v).state.heap) :=
  ⟨fun v => appendL_exact_stamp f L v,
    fun i hi => deleteL_exact_stamp f L i hi,
    fun i v hnf => modifyL_exact_stamp f L i v hnf,
    fun i v hnf => insertL_exact_stamp f L i v hnf⟩

theorem ops_single_stamp_witness :
    (hops seededList.heap seededList.ts 0 0 ≠ .offEnd) ∧
    ((modifyL 10 seededList 0 5).state.ts = seededList.ts + 1 ∧
      HEff (fun t => t = seededList.ts) seededList.heap
        (modifyL 10 seededList 0 5).state.heap) :=
  ⟨by decide, (ops_single_stamp 10 seededList).2.2.1 0 5 (by decide)⟩

/-- C7 counterexample — `modify_ith_node_val` with an off-end index on a
reachable one-element list succeeds through the `append` fallback, but
advances the clock twice, and the log entries it writes carry the second
stamp, not the version taken up front. -/
theorem modify_fallback_double_stamp :
    hops seededList.heap seededList.ts 0 3 = .offEnd ∧
    (modifyL 50 seededList 3 7).isOk = true ∧
    seededList.ts = 1 ∧
    (modifyL 50 seededList 3 7).state.ts = seededList.ts + 2 ∧
    ((modifyL 50 seededList 3 7).state.heap.get? 1).map
      (fun n => n.mods.map (fun e => e.1)) = some [seededList.ts + 1] := by
  refine ⟨by decide, by decide, by decide, by decide, by decide⟩

/-! ### Error paths of the split, and the end-to-end demo -/

def LR.errOf : LR → Option Err
  | .ok _ => none
  | .err e _ => some e

/-- The reachable one-node list holding three writes of the data tag (one
seed plus two modifies of index 0). -/
def c10State : LinkedList :=
  (runOps 50 mkLinkedList [.seed 1, .modify 0 2, .modify 0 3]).state

/-- C10 — on a single-node list, the fourth write of the data tag (one seed
plus three modifies of index 0, the last of which overflows) raises
`AttributeError` on `None.set_back` during the split, because the node's
most recent value for the pointer tag is absent; the overflowing node's own
log and fields are left unchanged by the failed split. -/
theorem overflow_on_absent_pointer_target_raises :
    (runOps 50 mkLinkedList [.seed 1, .modify 0 2, .modify 0 3]).isOk = true ∧
    ((c10State.heap.get? 0).map (fun n => n.mods.length)) = some 3 ∧
    hread c10State.heap 0 "next_ptr" c10State.ts = .ok none ∧
    (runOp 50 c10State (.modify 0 4)).isOk = false ∧
    (runOp 50 c10State (.modify 0 4)).errOf = some .attrNone ∧
    ((runOp 50 c10State (.modify 0 4)).state.heap.get? 0).map
        (fun n => n.mods) =
      (c10State.heap.get? 0).map (fun n => n.mods) ∧
    ((runOp 50 c10State (.modify 0 4)).state.heap.get? 0).map
        (fun n => (n.fields "value", n.fields "next_ptr")) =
      (c10State.heap.get? 0).map
        (fun n => (n.fields "value", n.fields "next_ptr")) := by
  refine ⟨by decide, by decide, by decide, by decide, by decide, by decide,
    by decide⟩

/-- The `__main__` demo, phase by phase; a `tick` models each checkpoint
`cp = L.now()` taken before printing. -/
def demo1 : LR :=
  runOps 60 mkLinkedList [.seed 1, .app 2, .app 3, .app 4, .app 5, .tick]

def demo2 : LR := runOps 60 demo1.state [.modify 2 20, .tick]

def demo3 : LR := runOps 60 demo2.state [.insert 2 22, .tick]

def demo4 : LR := runOps 60 demo3.state [.modify 1 10, .tick]

def demo5 : LR := runOps 60 demo4.state [.delete 2, .tick]

/-- C5 — the literal end-to-end scenario: seeding the root with 1 and
appending 2,3,4,5 renders `1->2->3->4->5->END`; `modifyAt(2,20)`,
`insertAfter(2,22)`, `modifyAt(1,10)` and `deleteAt(2)` render as recorded;
the checkpoints captured between the steps are versions 5, 7, 9, 11, 13;
and rendering the final structure at each captured version reproduces
exactly the render observed at that point. -/
theorem end_to_end_demo :
    demo1.isOk = true ∧ demo2.isOk = true ∧ demo3.isOk = true ∧
    demo4.isOk = true ∧ demo5.isOk = true ∧
    demo1.state.ts = 6 ∧ demo2.state.ts = 8 ∧ demo3.state.ts = 10 ∧
    demo4.state.ts = 12 ∧ demo5.state.ts = 14 ∧
    strCurrent 60 demo1.state = some "1->2->3->4->5->END" ∧
    strCurrent 60 demo2.state = some "1->2->20->4->5->END" ∧
    strCurrent 60 demo3.state = some "1->2->20->22->4->5->END" ∧
    strCurrent 60 demo4.state = some "1->10->20->22->4->5->END" ∧
    strCurrent 60 demo5.state = some "1->10->22->4->5->END" ∧
    strAt 60 demo5.state 5 = some "1->2->3->4->5->END" ∧
    strAt 60 demo5.state 7 = some "1->2->20->4->5->END" ∧
    strAt 60 demo5.state 9 = some "1->2->20->22->4->5->END" ∧
    strAt 60 demo5.state 11 = some "1->10->20->22->4->5->END" ∧
    strAt 60 demo5.state 13 = some "1->10->22->4->5->END" := by
  decide

/-! ### Deleting the last element -/

/-- Chain of nodes from `c` at version `v`: each listed node is read as the
successor of the previous one, and the final node reads an absent
successor. -/
def isChainB (h : Heap) (v : Nat) : Nat → List Nat → Bool
  | c, [] => decide (hread h c "next_ptr" v = .ok none)
  | c, d :: rest =>
    decide (hread h c "next_ptr" v = .ok (some (Val.ref d))) &&
      isChainB h v d rest

/-- Each position of a chain reads the next position (absent at the end). -/
theorem chain_reads (h : Heap) (v : Nat) :
    ∀ (xs : List Nat) (c : Nat), isChainB h v c xs = true →
      ∀ (k d : Nat), (c :: xs).get? k = some d →
        hread h d "next_ptr" v = .ok (((c :: xs).get? (k + 1)).map Val.ref) := by
  intro xs
  induction xs with
  | nil =>
    intro c hch k d hk
    cases k with
    | zero =>
      cases hk
      exact of_decide_eq_true hch
    | succ k2 => simp at hk
  | cons d2 rest ih =>
    intro c hch k d hk
    rw [isChainB, Bool.and_eq_true] at hch
    obtain ⟨h1, h2⟩ := hch
    cases k with
    | zero =>
      cases hk
      exact of_decide_eq_true h1
    | succ k2 =>
      exact ih d2 h2 k2 d hk

/-- The hop loop follows a chain. -/
theorem hops_chain (h : Heap) (v : Nat) :
    ∀ (xs : List Nat) (c : Nat), isChainB h v c xs = true →
      ∀ (k d : Nat), (c :: xs).get? k = some d →
        hops h v c k = .reached d := by
  intro xs
  induction xs with
  | nil =>
    intro c hch k d hk
    cases k with
    | zero => cases hk; rfl
    | succ k2 => simp at hk
  | cons d2 rest ih =>
    intro c hch k d hk
    rw [isChainB, Bool.and_eq_true] at hch
    obtain ⟨h1, h2⟩ := hch
    cases k with
    | zero => cases hk; rfl
    | succ k2 =>
      rw [hops, of_decide_eq_true h1]
      exact ih d2 h2 k2 d hk

/-- A successful heap read means the tag is declared on that node. -/
theorem hread_ok_tag {h : Heap} {c : Nat} {var : String} {v : Nat}
    {r : Option Val} (hr : hread h c var v = .ok r) :
    ∃ n, h.get? c = some n ∧ var ∈ n.dt ++ n.pt := by
  cases hx : h.get? c with
  | none =>
    simp only [hread, hx] at hr
    exact Except.noConfusion hr
  | some n =>
    refine ⟨n, rfl, ?_⟩
    simp only [hread, hx] at hr
    unfold PersistentNode.read at hr
    by_cases htag : var ∈ n.dt ++ n.pt
    · exact htag
    · rw [if_neg htag] at hr
      exact Except.noConfusion hr

/-- C9 (amended) — on a list whose chain from the root at the current stamp
has `i + 1 ≥ 2` nodes, `delete_ith_node(i)` (deleting the last element)
raises `AttributeError` when the reverse-set update is invoked on the
removed element's absent successor; provided the cursor's (node `i-1`'s)
log still has room, the cursor's pointer has already been rewritten to
absent at the operation's stamp when the exception is raised, so the
deletion is visible at the current version despite the failure — the
operation is not atomic on this path.  (When the cursor's log is full the
delete still raises, but from inside the split, and the pointer is not
rewritten; see the counterexample.) -/
theorem delete_last_raises_after_rewrite (f : Nat) (L : LinkedList)
    (i : Nat) (xs : List Nat) (c : Nat) (n : PersistentNode)
    (hi : 1 ≤ i) (hlenxs : xs.length = i)
    (hch : isChainB L.heap L.ts 0 xs = true)
    (hc : (0 :: xs).get? (i - 1) = some c)
    (hn : L.heap.get? c = some n) (hroom : n.mods.length ≤ 2 * n.p)
    (hmax : ∀ e ∈ n.mods, e.1 ≤ L.ts) :
    ∃ h2, deleteL (f + 1) L i = .err .attrNone { heap := h2, ts := L.ts + 1 } ∧
      hread h2 c "next_ptr" L.ts = .ok none := by
  obtain ⟨nj, hnj⟩ : ∃ nj, (0 :: xs).get? i = some nj := by
    cases hx : (0 :: xs).get? i with
    | none =>
      rw [List.get?_eq_none] at hx
      simp only [List.length_cons, hlenxs] at hx
      omega
    | some y => exact ⟨y, rfl⟩
  have hrc : hread L.heap c "next_ptr" L.ts = .ok (some (Val.ref nj)) := by
    have hx := chain_reads L.heap L.ts xs 0 hch (i - 1) c hc
    rw [show i - 1 + 1 = i from by omega, hnj] at hx
    exact hx
  have hrnj : hread L.heap nj "next_ptr" L.ts = .ok none := by
    have hx := chain_reads L.heap L.ts xs 0 hch i nj hnj
    rw [List.get?_eq_none.2 (by simp [hlenxs])] at hx
    exact hx
  obtain ⟨n2, hn2, hvar⟩ := hread_ok_tag hrc
  rw [hn] at hn2
  cases hn2
  have hjl : c < L.heap.length := by
    by_contra hcx
    rw [List.get?_eq_none.2 (Nat.le_of_not_lt hcx)] at hn
    cases hn
  refine ⟨L.heap.set c { n with mods := n.mods ++ [(L.ts, "next_ptr", none)] },
    ?_, ?_⟩
  · simp only [deleteL, tickL]
    rw [if_neg (by omega)]
    simp only [hops_chain L.heap L.ts xs 0 hch (i - 1) c hc, hrc, hrnj,
      writeNode_nonsplit f L.ts "next_ptr" none hn hvar hroom]
  · simp only [hread, List.get?_set_eq_of_lt _ hjl]
    unfold PersistentNode.read
    rw [if_pos hvar,
      readLoop_last "next_ptr" L.ts none n.mods (n.fields "next_ptr") hmax]

/-- The two-element reachable list `1 -> 2` and its root node. -/
def c9List : LinkedList := (runOps 50 mkLinkedList [.seed 1, .app 2]).state

def c9Root : PersistentNode :=
  { p := 1, dt := ["value"], pt := ["next_ptr"],
    fields := fun _ => none,
    back := fun _ => [],
    mods := [(0, "value", some (Val.intV 1)),
             (1, "next_ptr", some (Val.ref 1))] }

theorem delete_last_raises_after_rewrite_witness :
    (1 ≤ 1 ∧ ([1] : List Nat).length = 1 ∧
      isChainB c9List.heap c9List.ts 0 [1] = true ∧
      ((0 :: [1] : List Nat).get? 0 = some 0) ∧
      c9List.heap.get? 0 = some c9Root ∧
      c9Root.mods.length ≤ 2 * c9Root.p ∧
      ∀ e ∈ c9Root.mods, e.1 ≤ c9List.ts) ∧
    (∃ h2, deleteL 50 c9List 1 =
        .err .attrNone { heap := h2, ts := c9List.ts + 1 } ∧
      hread h2 0 "next_ptr" c9List.ts = .ok none) :=
  ⟨⟨by decide, by decide, by decide, by decide, rfl, by decide, by decide⟩,
    delete_last_raises_after_rewrite 49 c9List 1 [1] 0 c9Root (by decide)
      (by decide) (by decide) (by decide) rfl (by decide) (by decide)⟩

/-- The reachable two-element list whose root log is full. -/
def c9FullState : LinkedList :=
  (runOps 50 mkLinkedList [.seed 1, .app 2, .modify 0 5]).state

/-- C9 counterexample — on a two-element list whose last element is at
index 1 but whose cursor's log is full, `delete_ith_node(1)` still raises,
but from inside the split, and the cursor's pointer is *not* rewritten: at
the operation's stamp the cursor still reads its old successor, so the
claimed visible deletion does not happen on this input. -/
theorem delete_last_full_cursor_not_rewritten :
    (runOps 50 mkLinkedList [.seed 1, .app 2, .modify 0 5]).isOk = true ∧
    strCurrent 20 c9FullState = some "5->2->END" ∧
    hread c9FullState.heap 0 "next_ptr" c9FullState.ts =
      .ok (some (Val.ref 1)) ∧
    ((c9FullState.heap.get? 0).map (fun n => n.mods.length)) = some 3 ∧
    (deleteL 50 c9FullState 1).isOk = false ∧
    (deleteL 50 c9FullState 1).errOf = some .attrNone ∧
    hread (deleteL 50 c9FullState 1).state.heap 0 "next_ptr"
        c9FullState.ts = .ok (some (Val.ref 1)) := by
  refine ⟨by decide, by decide, by decide, by decide, by decide, by decide,
    by decide⟩

/-! ### The shape of a split with no recorded referencers -/

/-- Two arenas that differ at most in the reverse sets of their nodes. -/
def BackOnly (h h2 : Heap) : Prop :=
  h2.length = h.length ∧ ∀ q m, h.get? q = some m → ∃ m2,
    h2.get? q = some m2 ∧ m2.p = m.p ∧ m2.dt = m.dt ∧ m2.pt = m.pt ∧
    m2.fields = m.fields ∧ m2.mods = m.mods

theorem BackOnly.bo_refl (h : Heap) : BackOnly h h :=
  ⟨rfl, fun _ m hq => ⟨m, hq, rfl, rfl, rfl, rfl, rfl⟩⟩

theorem BackOnly.bo_trans {h1 h2 h3 : Heap} (a : BackOnly h1 h2)
    (b : BackOnly h2 h3) : BackOnly h1 h3 := by
  refine ⟨b.1.trans a.1, fun q m hq => ?_⟩
  obtain ⟨m2, hq2, p1, d1, t1, f1, s1⟩ := a.2 q m hq
  obtain ⟨m3, hq3, p2, d2, t2, f2, s2⟩ := b.2 q m2 hq2
  exact ⟨m3, hq3, p2.trans p1, d2.trans d1, t2.trans t1, f2.trans f1,
    s2.trans s1⟩

theorem BackOnly.bo_set {h : Heap} {j : Nat} {m m2 : PersistentNode}
    (hj : h.get? j = some m) (hp : m2.p = m.p) (hdt : m2.dt = m.dt)
    (hpt : m2.pt = m.pt) (hf : m2.fields = m.fields) (hm : m2.mods = m.mods) :
    BackOnly h (h.set j m2) := by
  have hjl : j < h.length := by
    by_contra hc
    rw [List.get?_eq_none.2 (Nat.le_of_not_lt hc)] at hj
    cases hj
  refine ⟨by rw [List.length_set], fun q n hq => ?_⟩
  by_cases hqj : q = j
  · subst hqj
    have hmn : n = m := by rw [hj] at hq; cases hq; rfl
    subst hmn
    exact ⟨m2, List.get?_set_eq_of_lt _ hjl, hp, hdt, hpt, hf, hm⟩
  · exact ⟨n, by rw [List.get?_set_ne _ _ (fun hc => hqj hc.symm)]; exact hq,
      rfl, rfl, rfl, rfl, rfl⟩

/-- `set_back` on a declared pointer tag always succeeds. -/
theorem setBack_ok {tn : PersistentNode} {ptr : String} (hp : ptr ∈ tn.pt)
    (nw : Nat) (old : Option Nat) : ∃ tn2, tn.setBack ptr nw old = .ok tn2 :=
  ⟨_, by rw [PersistentNode.setBack, if_pos hp]⟩

/-- When every pointer tag resolves to a node (away from `avoid`) that
declares the tag, the split's first loop succeeds and changes reverse sets
only, leaving the node at `avoid` untouched. -/
theorem setBackTargets_ok : ∀ (ptrs : List String) (fuel : Nat) (h : Heap)
    (nf : String → Option Val) (newId oldId avoid : Nat),
    ptrs.length < fuel →
    (∀ ptr ∈ ptrs, ∃ j tn, nf ptr = some (Val.ref j) ∧ h.get? j = some tn ∧
      ptr ∈ tn.pt ∧ j ≠ avoid) →
    ∃ h2, setBackTargets fuel h nf newId oldId ptrs = .ok () h2 ∧
      BackOnly h h2 ∧ h2.get? avoid = h.get? avoid := by
  intro ptrs
  induction ptrs with
  | nil =>
    intro fuel h nf newId oldId avoid hfuel htg
    cases fuel with
    | zero => omega
    | succ g =>
      refine ⟨h, ?_, BackOnly.bo_refl h, rfl⟩
      rw [setBackTargets]
      rw [engineStep]
  | cons ptr rest ih =>
    intro fuel h nf newId oldId avoid hfuel htg
    cases fuel with
    | zero => simp only [List.length_cons] at hfuel; omega
    | succ g =>
      obtain ⟨j, tn, hnf, hg, hp, hav⟩ := htg ptr (List.mem_cons_self _ _)
      obtain ⟨tn2, hsb⟩ := setBack_ok hp newId (some oldId)
      obtain ⟨hp2, hdt2, hpt2, hf2, hm2⟩ := setBack_shape hsb
      have hbo : BackOnly h (h.set j tn2) :=
        BackOnly.bo_set hg hp2 hdt2 hpt2 hf2 hm2
      have hrest : ∀ ptr2 ∈ rest, ∃ j2 tn3,
          nf ptr2 = some (Val.ref j2) ∧ (h.set j tn2).get? j2 = some tn3 ∧
          ptr2 ∈ tn3.pt ∧ j2 ≠ avoid := by
        intro ptr2 hptr2
        obtain ⟨j2, tn3, hnf3, hg3, hp3, hav3⟩ :=
          htg ptr2 (List.mem_cons_of_mem _ hptr2)
        obtain ⟨m2, hg4, _, _, hpt4, _, _⟩ := hbo.2 j2 tn3 hg3
        exact ⟨j2, m2, hnf3, hg4, by rw [hpt4]; exact hp3, hav3⟩
      have hfg : rest.length < g := by
        simp only [List.length_cons] at hfuel
        omega
      obtain ⟨h2, hrun, hbo2, hav2⟩ :=
        ih g (h.set j tn2) nf newId oldId avoid hfg hrest
      have hrun2 : engineStep g (h.set j tn2)
          (.targets nf newId oldId rest) = .ok () h2 := hrun
      refine ⟨h2, ?_, hbo.bo_trans hbo2, ?_⟩
      · rw [setBackTargets]
        rw [engineStep]
        simp only [hnf, hg, hsb]
        exact hrun2
      · rw [hav2, List.get?_set_ne _ _ hav]

/-- With no recorded referencers on any tag, the split's cascade does
nothing. -/
theorem cascadeAll_noop : ∀ (ptrs : List String) (fuel : Nat) (h : Heap)
    (newId now : Nat),
    ptrs.length < fuel →
    (∀ ptr ∈ ptrs, (match h.get? newId with
      | some nn => nn.back ptr
      | none => ([] : List Nat)) = []) →
    cascadeAll fuel h newId now ptrs = .ok () h := by
  intro ptrs
  induction ptrs with
  | nil =>
    intro fuel h newId now hfuel _
    cases fuel with
    | zero => omega
    | succ g =>
      rw [cascadeAll]
      rw [engineStep]
  | cons ptr rest ih =>
    intro fuel h newId now hfuel hback
    cases fuel with
    | zero => simp only [List.length_cons] at hfuel; omega
    | succ g =>
      have hg0 : 0 < g := by
        simp only [List.length_cons] at hfuel
        omega
      obtain ⟨g2, rfl⟩ : ∃ g2, g = g2 + 1 :=
        ⟨g - 1, by omega⟩
      rw [cascadeAll]
      rw [engineStep]
      rw [hback ptr (List.mem_cons_self _ _)]
      have hrew : engineStep (g2 + 1) h (.rewire [] now ptr newId) =
          .ok () h := by
        rw [engineStep]
      rw [hrew]
      have hrest := ih (g2 + 1) h newId now
        (by simp only [List.length_cons] at hfuel; omega)
        (fun p2 hp2 => hback p2 (List.mem_cons_of_mem _ hp2))
      have hrest2 : engineStep (g2 + 1) h (.cascade newId now rest) =
          .ok () h := hrest
      exact hrest2

/-- A write that overflows a node with no recorded referencers, all of
whose folded pointer tags resolve to existing nodes, succeeds and: appends
nothing to that node's log, leaves its baseline untouched, and allocates
exactly one new node — the folded copy with an empty log holding the
written value directly in baseline. -/
theorem write_on_full_splits (f : Nat) (h : Heap) (i now : Nat)
    (var : String) (val : Option Val) (n : PersistentNode)
    (hg : h.get? i = some n) (hvar : var ∈ n.dt ++ n.pt)
    (hfull : ¬ n.mods.length ≤ 2 * n.p) (hfuel : n.pt.length < f)
    (hnoback : ∀ ptr ∈ n.pt, n.back ptr = [])
    (htargets : ∀ ptr ∈ n.pt, ∃ j tn,
      splitFields n var val ptr = some (Val.ref j) ∧
      h.get? j = some tn ∧ ptr ∈ tn.pt) :
    ∃ h2, writeNode (f + 1) h i now var val = .ok () h2 ∧
      h2.length = h.length + 1 ∧
      (∃ n1, h2.get? i = some n1 ∧ n1.mods = n.mods ∧
        n1.fields = n.fields) ∧
      h2.get? h.length = some (splitNode n var val) ∧
      (splitNode n var val).mods = [] ∧
      (splitNode n var val).fields var = val := by
  have hil : i < h.length := by
    by_contra hc
    rw [List.get?_eq_none.2 (Nat.le_of_not_lt hc)] at hg
    cases hg
  have htg1 : ∀ ptr ∈ n.pt, ∃ j tn,
      splitFields n var val ptr = some (Val.ref j) ∧
      (h ++ [splitNode n var val]).get? j = some tn ∧ ptr ∈ tn.pt ∧
      j ≠ h.length := by
    intro ptr hptr
    obtain ⟨j, tn, h1, h2, h3⟩ := htargets ptr hptr
    have hjl : j < h.length := by
      by_contra hc
      rw [List.get?_eq_none.2 (Nat.le_of_not_lt hc)] at h2
      cases h2
    exact ⟨j, tn, h1, by rw [List.get?_append hjl]; exact h2, h3, by omega⟩
  obtain ⟨h2, hrun, hbo, hpre⟩ := setBackTargets_ok n.pt f
    (h ++ [splitNode n var val]) (splitFields n var val) h.length i
    h.length hfuel htg1
  have hnew1 : (h ++ [splitNode n var val]).get? h.length =
      some (splitNode n var val) := List.get?_concat_length _ _
  have hnew2 : h2.get? h.length = some (splitNode n var val) := by
    rw [hpre, hnew1]
  have hcond : ∀ ptr ∈ n.pt, (match h2.get? h.length with
      | some nn => nn.back ptr
      | none => ([] : List Nat)) = [] := by
    intro ptr hptr
    rw [hnew2]
    exact hnoback ptr hptr
  refine ⟨h2, ?_, ?_, ?_, hnew2, rfl, by simp [splitNode, splitFields]⟩
  · rw [writeNode_split f now var val hg hvar hfull]
    simp only [hrun]
    exact cascadeAll_noop n.pt f h2 h.length now hfuel hcond
  · rw [hbo.1, List.length_append, List.length_cons, List.length_nil]
  · obtain ⟨n1, hq, _, _, _, hf1, hm1⟩ := hbo.2 i n
      (by rw [List.get?_append hil]; exact hg)
    exact ⟨n1, hq, hm1, hf1⟩

/-- C3 (amended) — (1) in every reachable state, every node's log holds at
most `2p + 1` entries (for `p = 1`: at most 3, so the 4th write to a node
splits); (2) a write issued when the log is already full appends nothing to
that node's log, and when the node has no recorded referencers and its
folded pointer tags resolve to existing nodes, the split succeeds and
allocates exactly one new node, whose fields fold the latest logged value
per tag, whose own log starts empty, and whose written tag holds the new
value directly in baseline.  (In general the cascaded rewrites may allocate
further nodes — see the counterexample — and the split raises when a folded
pointer tag is absent.) -/
theorem bounded_logs_and_split_shape :
    (∀ L : LinkedList, Reach L → ∀ n ∈ L.heap,
      n.mods.length ≤ 2 * n.p + 1) ∧
    (∀ (f : Nat) (h : Heap) (i now : Nat) (var : String) (val : Option Val)
        (n : PersistentNode),
      h.get? i = some n → var ∈ n.dt ++ n.pt →
      ¬ n.mods.length ≤ 2 * n.p → n.pt.length < f →
      (∀ ptr ∈ n.pt, n.back ptr = []) →
      (∀ ptr ∈ n.pt, ∃ j tn,
        splitFields n var val ptr = some (Val.ref j) ∧
        h.get? j = some tn ∧ ptr ∈ tn.pt) →
      ∃ h2, writeNode (f + 1) h i now var val = .ok () h2 ∧
        h2.length = h.length + 1 ∧
        (∃ n1, h2.get? i = some n1 ∧ n1.mods = n.mods ∧
          n1.fields = n.fields) ∧
        h2.get? h.length = some (splitNode n var val) ∧
        (splitNode n var val).mods = [] ∧
        (splitNode n var val).fields var = val) :=
  ⟨fun _ hR => reach_logBound hR,
    fun f h i now var val n hg hvar hfull hfuel hnoback htargets =>
      write_on_full_splits f h i now var val n hg hvar hfull hfuel hnoback
        htargets⟩

/-- The root of `c6State` (one seed, an append, a modify): a full log. -/
def c6RootFull : PersistentNode :=
  { p := 1, dt := ["value"], pt := ["next_ptr"],
    fields := fun _ => none,
    back := fun _ => [],
    mods := [(0, "value", some (Val.intV 1)),
             (1, "next_ptr", some (Val.ref 1)),
             (2, "value", some (Val.intV 7))] }

/-- The second node of `c6State`. -/
def c6Second : PersistentNode :=
  { p := 1, dt := ["value"], pt := ["next_ptr"],
    fields := fun _ => none,
    back := fun t => if t = "next_ptr" then [0] else [],
    mods := [(1, "value", some (Val.intV 2))] }

theorem bounded_logs_and_split_shape_witness :
    (Reach c6State ∧ ∀ n ∈ c6State.heap, n.mods.length ≤ 2 * n.p + 1) ∧
    (c6State.heap.get? 0 = some c6RootFull ∧
      ¬ c6RootFull.mods.length ≤ 2 * c6RootFull.p ∧
      ∃ h2, writeNode 11 c6State.heap 0 3 "value" (some (Val.intV 99)) =
          .ok () h2 ∧
        h2.length = c6State.heap.length + 1 ∧
        (∃ n1, h2.get? 0 = some n1 ∧ n1.mods = c6RootFull.mods ∧
          n1.fields = c6RootFull.fields) ∧
        h2.get? c6State.heap.length =
          some (splitNode c6RootFull "value" (some (Val.intV 99))) ∧
        (splitNode c6RootFull "value" (some (Val.intV 99))).mods = [] ∧
        (splitNode c6RootFull "value" (some (Val.intV 99))).fields "value" =
          some (Val.intV 99)) := by
  have hR : Reach c6State :=
    reach_runOps 50 [.seed 1, .app 2, .modify 0 7] mkLinkedList Reach.init
      (by decide)
  refine ⟨⟨hR, bounded_logs_and_split_shape.1 c6State hR⟩, rfl, by decide, ?_⟩
  refine bounded_logs_and_split_shape.2 10 c6State.heap 0 3 "value"
    (some (Val.intV 99)) c6RootFull rfl (by decide) (by decide) (by decide)
    ?_ ?_
  · intro ptr hptr
    rw [show c6RootFull.pt = ["next_ptr"] from rfl, List.mem_singleton] at hptr
    subst hptr
    rfl
  · intro ptr hptr
    rw [show c6RootFull.pt = ["next_ptr"] from rfl, List.mem_singleton] at hptr
    subst hptr
    exact ⟨1, c6Second, by decide, rfl, by decide⟩

/-- The reachable state in which node 1's log is full and its referencer
(the root) also has a full log. -/
def c3Pre : LR :=
  runOps 60 mkLinkedList [.seed 1, .app 2, .modify 0 7, .app 3, .modify 1 8]

/-- C3 counterexample — a write issued when the log already holds `2p + 1`
entries does *not* always produce exactly one new node: on a reachable
state where the overflowing node's referencer is itself full, the single
overflowing engine write (one `modify`) allocates two nodes — its own split
copy and the cascaded split copy of the referencer. -/
theorem overflow_write_can_allocate_two_nodes :
    c3Pre.isOk = true ∧ Reach c3Pre.state ∧
    ((c3Pre.state.heap.get? 1).map (fun n => (n.p, n.mods.length))) =
      some (1, 3) ∧
    c3Pre.state.heap.length = 3 ∧
    (runOp 60 c3Pre.state (.modify 1 9)).isOk = true ∧
    (runOp 60 c3Pre.state (.modify 1 9)).state.heap.length = 5 := by
  refine ⟨by decide, ?_, by decide, by decide, by decide, by decide⟩
  exact reach_runOps 60 [.seed 1, .app 2, .modify 0 7, .app 3, .modify 1 8]
    mkLinkedList Reach.init (by decide)

/-! ### Reverse-set sizes -/

/-- The reachable state built by the demo prefix up to the first insert. -/
def c2State : LR :=
  runOps 60 mkLinkedList
    [.seed 1, .app 2, .app 3, .app 4, .app 5, .modify 2 20, .insert 2 22]

/-- C2 counterexample — the reverse-set bound `|reverse[tag]| ≤ p` fails on
a reachable state: after seeding, four appends, a modify and an insert
(the demo's own prefix), the inserted node's reverse set for `next_ptr`
holds two referencers (the cursor's split copy, added during the split,
and the stale pre-split cursor added by `insert_after_ith_node`'s final
`set_back`), while `p = 1`. -/
theorem reverse_set_bound_violated :
    c2State.isOk = true ∧ Reach c2State.state ∧
    ((c2State.state.heap.get? 5).map
      (fun n => (n.p, (n.back "next_ptr").length))) = some (1, 2) ∧
    ((c2State.state.heap.get? 5).map (fun n => n.back "next_ptr")) =
      some [6, 2] ∧
    ¬ (2 ≤ 1) := by
  refine ⟨by decide, ?_, by decide, by decide, by decide⟩
  exact reach_runOps 60
    [.seed 1, .app 2, .app 3, .app 4, .app 5, .modify 2 20, .insert 2 22]
    mkLinkedList Reach.init (by decide)

/-- Appending `(s, var, x)` to a log whose versions are all at most `v`,
with `s ≤ v`, makes a read of `var` at `v` return `x`. -/
theorem readLoop_last_le (var : String) (v s : Nat) (x : Option Val)
    (hs : s ≤ v) :
    ∀ (mods : List Mod) (res : Option Val), (∀ e ∈ mods, e.1 ≤ v) →
      readLoop var v res (mods ++ [(s, var, x)]) = x := by
  intro mods
  induction mods with
  | nil =>
    intro res _
    rw [List.nil_append]
    simp only [readLoop]
    rw [if_neg (by omega : ¬ v < s)]
    simp
  | cons m rest ih =>
    intro res hall
    obtain ⟨mv, mf, mval⟩ := m
    rw [List.cons_append]
    simp only [readLoop]
    rw [if_neg (Nat.not_lt.2 (hall (mv, mf, mval) (List.mem_cons_self _ rest)))]
    exact ih _ (fun e he => hall e (List.mem_cons_of_mem _ he))

/-- A log with no entry for `var` leaves a read of `var` at the baseline. -/
theorem readLoop_no_match (var : String) (v : Nat) :
    ∀ (mods : List Mod) (res : Option Val), (∀ e ∈ mods, ¬ e.2.1 = var) →
      readLoop var v res mods = res := by
  intro mods
  induction mods with
  | nil => intro res _; rfl
  | cons m rest ih =>
    intro res hall
    obtain ⟨mv, mf, mval⟩ := m
    simp only [readLoop]
    rw [if_neg (hall (mv, mf, mval) (List.mem_cons_self _ rest))]
    by_cases hv : v < mv
    · rw [if_pos hv]
    · rw [if_neg hv]
      exact ih res (fun e he => hall e (List.mem_cons_of_mem _ he))

/-- The invariant of a list built by one seed and `k` appends: a clock one
past the element count, one node per element, unit reverse sets, clock
dominance, a `next_ptr` chain along the arena order, and a short-logged
last node. -/
def AppInv (L : LinkedList) (k : Nat) : Prop :=
  L.ts = k + 1 ∧ L.heap.length = k + 1 ∧
  (∀ n ∈ L.heap, n.p = 1 ∧ ∀ t, (n.back t).length ≤ 1) ∧
  (∀ n ∈ L.heap, ∀ e ∈ n.mods, e.1 < L.ts) ∧
  (∀ j, j < k → ∀ w, j + 1 ≤ w →
    hread L.heap j "next_ptr" w = .ok (some (Val.ref (j + 1)))) ∧
  (∃ m, L.heap.get? k = some m ∧ m.mods.length ≤ 1 ∧
    "next_ptr" ∈ m.dt ++ m.pt ∧
    ∀ w, hread L.heap k "next_ptr" w = .ok none)

/-- Traversal along a read chain lands on the chain's last node. -/
theorem findLast_of_chain (h : Heap) (k v : Nat)
    (hchain : ∀ j, j < k → ∀ w, j + 1 ≤ w →
      hread h j "next_ptr" w = .ok (some (Val.ref (j + 1))))
    (hlast : hread h k "next_ptr" v = .ok none) (hv : k ≤ v) :
    ∀ (fuel j : Nat), j ≤ k → k - j < fuel → findLast fuel h j v = .ok k := by
  intro fuel
  induction fuel with
  | zero => intro j _ h2; omega
  | succ g ih =>
    intro j hj hfuel
    by_cases hjk : j = k
    · subst hjk
      rw [findLast]
      simp only [hlast]
    · have hjlt : j < k := by omega
      rw [findLast]
      simp only [hchain j hjlt v (by omega)]
      exact ih (j + 1) (by omega) (by omega)

/-- `set_back` with no old referencer on a node whose reverse sets are
bounded by one and empty at the written tag keeps the bound. -/
theorem setBack_back_bound {n n2 : PersistentNode} {ptr : String} {nw : Nat}
    (hsb : n.setBack ptr nw none = .ok n2)
    (hb : ∀ t, (n.back t).length ≤ 1) (hnil : n.back ptr = []) :
    ∀ t, (n2.back t).length ≤ 1 := by
  by_cases hp : ptr ∈ n.pt
  · simp only [PersistentNode.setBack, hp, if_true, Except.ok.injEq] at hsb
    subst hsb
    intro t
    by_cases htp : t = ptr
    · simp [htp, hnil, setAdd]
    · simp only [htp, if_false]
      exact hb t
  · simp only [PersistentNode.setBack, hp, if_false] at hsb
    exact Except.noConfusion hsb

theorem LR.andThen_assoc (r : LR) (k k2 : LinkedList → LR) :
    (r.andThen k).andThen k2 = r.andThen (fun L => (k L).andThen k2) := by
  cases r <;> rfl

theorem runOps_append (f : Nat) : ∀ (a b : List Op) (L : LinkedList),
    runOps f L (a ++ b) =
      (runOps f L a).andThen (fun L2 => runOps f L2 b) := by
  intro a
  induction a with
  | nil => intro b L; rfl
  | cons o rest ih =>
    intro b L
    rw [List.cons_append, runOps, runOps, LR.andThen_assoc]
    congr 1
    funext L2
    exact ih b L2

/-- The root node right after `set_root_value(x)` on a fresh list. -/
def seedNode (x : Int) : PersistentNode :=
  { mkNode ["value"] ["next_ptr"] 1 with
      mods := (mkNode ["value"] ["next_ptr"] 1).mods ++
        [(0, "value", some (Val.intV x))] }

/-- The list right after `set_root_value(x)` on a fresh list. -/
def seedState (x : Int) : LinkedList :=
  { heap := ([mkNode ["value"] ["next_ptr"] 1] : Heap).set 0 (seedNode x),
    ts := 0 + 1 }

/-- Seeding a fresh list establishes the append invariant at zero
elements. -/
theorem seed_appInv (g : Nat) (x : Int) :
    setRootValue (g + 1) mkLinkedList x = .ok (seedState x) ∧
      AppInv (seedState x) 0 := by
  have hw : writeNode (g + 1) [mkNode ["value"] ["next_ptr"] 1] 0 0 "value"
      (some (Val.intV x)) =
      .ok () (([mkNode ["value"] ["next_ptr"] 1] : Heap).set 0
        { mkNode ["value"] ["next_ptr"] 1 with
            mods := (mkNode ["value"] ["next_ptr"] 1).mods ++
              [(0, "value", some (Val.intV x))] }) :=
    writeNode_nonsplit g 0 "value" (some (Val.intV x)) rfl (by decide)
      (by decide)
  refine ⟨by simp only [setRootValue, tickL, mkLinkedList, hw, seedState,
      seedNode], ?_, ?_, ?_, ?_, ?_, ?_⟩
  · rfl
  · rfl
  · intro n hn
    rcases List.mem_or_eq_of_mem_set hn with hh | hh
    · rw [List.mem_singleton] at hh
      rw [hh]
      exact ⟨rfl, fun t => by simp [mkNode]⟩
    · rw [hh]
      exact ⟨rfl, fun t => by simp [seedNode, mkNode]⟩
  · intro n hn e he
    rcases List.mem_or_eq_of_mem_set hn with hh | hh
    · rw [List.mem_singleton] at hh
      rw [hh] at he
      cases he
    · rw [hh] at he
      simp only [seedNode, mkNode, List.nil_append,
        List.mem_singleton] at he
      rw [he]
      simp [seedState]
  · intro j hj
    omega
  · refine ⟨seedNode x, rfl, by simp [seedNode, mkNode], by simp [seedNode, mkNode], ?_⟩
    intro w
    simp only [hread]
    show ((seedNode x).read "next_ptr" w) = .ok none
    unfold PersistentNode.read
    rw [if_pos (by simp [seedNode, mkNode])]
    rw [readLoop_no_match "next_ptr" w _ _ ?_]
    · simp [seedNode, mkNode]
    · intro e he
      simp only [seedNode, mkNode, List.nil_append,
        List.mem_singleton] at he
      rw [he]
      simp

/-- The fresh node allocated by `append`, after its value write. -/
def freshNode (ts : Nat) (v : Int) : PersistentNode :=
  { mkNode ["value"] ["next_ptr"] 1 with
      mods := (mkNode ["value"] ["next_ptr"] 1).mods ++
        [(ts, "value", some (Val.intV v))] }

theorem hread_eq_of_get {h h2 : Heap} {j : Nat}
    (hj : h2.get? j = h.get? j) (var : String) (v : Nat) :
    hread h2 j var v = hread h j var v := by
  simp only [hread, hj]

/-- `append` preserves the append invariant, advancing the element count. -/
theorem appendL_appInv (g : Nat) (L : LinkedList) (k : Nat) (v : Int)
    (hinv : AppInv L k) (hfuel : k + 1 ≤ g) :
    ∃ L2, appendL (g + 1) L v = .ok L2 ∧ AppInv L2 (k + 1) := by
  obtain ⟨hts, hlen, hshape, hvb, hchain, m, hm, hmlen, hmnext, hmnone⟩ := hinv
  have hmmem : m ∈ L.heap := List.get?_mem hm
  have hmp : m.p = 1 := (hshape m hmmem).1
  have hfind : findLast (g + 1) L.heap 0 L.ts = .ok k :=
    findLast_of_chain L.heap k L.ts hchain (hmnone L.ts) (by omega) (g + 1) 0
      (by omega) (by omega)
  have hl1 : (L.heap ++ [mkNode ["value"] ["next_ptr"] 1]).get? L.heap.length
      = some (mkNode ["value"] ["next_ptr"] 1) := List.get?_concat_length _ _
  have hw1 : writeNode (g + 1) (L.heap ++ [mkNode ["value"] ["next_ptr"] 1])
      L.heap.length L.ts "value" (some (Val.intV v)) =
      .ok () ((L.heap ++ [mkNode ["value"] ["next_ptr"] 1]).set L.heap.length
        (freshNode L.ts v)) :=
    writeNode_nonsplit g L.ts "value" (some (Val.intV v)) hl1 (by decide)
      (by decide)
  have hg2 : ((L.heap ++ [mkNode ["value"] ["next_ptr"] 1]).set L.heap.length
      (freshNode L.ts v)).get? L.heap.length = some (freshNode L.ts v) :=
    List.get?_set_eq_of_lt _ (by simp)
  obtain ⟨W2, hsb⟩ := setBack_ok
    (show "next_ptr" ∈ (freshNode L.ts v).pt by simp [freshNode, mkNode])
    k none
  obtain ⟨hW2p, hW2dt, hW2pt, hW2f, hW2m⟩ := setBack_shape hsb
  have hW2b : ∀ t, (W2.back t).length ≤ 1 :=
    setBack_back_bound hsb (fun t => by simp [freshNode, mkNode])
      (by simp [freshNode, mkNode])
  have hg3 : (((L.heap ++ [mkNode ["value"] ["next_ptr"] 1]).set
      L.heap.length (freshNode L.ts v)).set L.heap.length W2).get? k
      = some m := by
    rw [List.get?_set_ne _ _ (by omega), List.get?_set_ne _ _ (by omega),
      List.get?_append (by omega)]
    exact hm
  have hw2 : writeNode (g + 1)
      (((L.heap ++ [mkNode ["value"] ["next_ptr"] 1]).set L.heap.length
        (freshNode L.ts v)).set L.heap.length W2) k L.ts "next_ptr"
      (some (Val.ref L.heap.length)) =
      .ok () ((((L.heap ++ [mkNode ["value"] ["next_ptr"] 1]).set
        L.heap.length (freshNode L.ts v)).set L.heap.length W2).set k
        { m with mods := m.mods ++
          [(L.ts, "next_ptr", some (Val.ref L.heap.length))] }) :=
    writeNode_nonsplit g L.ts "next_ptr" (some (Val.ref L.heap.length)) hg3
      hmnext (by rw [hmp]; omega)
  have happ : appendL (g + 1) L v = .ok
      { heap := (((L.heap ++ [mkNode ["value"] ["next_ptr"] 1]).set
          L.heap.length (freshNode L.ts v)).set L.heap.length W2).set k
          { m with mods := m.mods ++
            [(L.ts, "next_ptr", some (Val.ref L.heap.length))] },
        ts := L.ts + 1 } := by
    simp only [appendL, tickL, hfind, hw1, hg2, hsb, hw2]
  refine ⟨_, happ, ?_⟩
  have hH4len : ((((L.heap ++ [mkNode ["value"] ["next_ptr"] 1]).set
      L.heap.length (freshNode L.ts v)).set L.heap.length W2).set k
      { m with mods := m.mods ++
        [(L.ts, "next_ptr", some (Val.ref L.heap.length))] }).length
      = k + 2 := by
    simp [hlen]
  have hq_lt : ∀ q, q < k → ((((L.heap ++
      [mkNode ["value"] ["next_ptr"] 1]).set L.heap.length
      (freshNode L.ts v)).set L.heap.length W2).set k
      { m with mods := m.mods ++
        [(L.ts, "next_ptr", some (Val.ref L.heap.length))] }).get? q
      = L.heap.get? q := by
    intro q hq
    rw [List.get?_set_ne _ _ (by omega), List.get?_set_ne _ _ (by omega),
      List.get?_set_ne _ _ (by omega), List.get?_append (by omega)]
  have hq_k : ((((L.heap ++ [mkNode ["value"] ["next_ptr"] 1]).set
      L.heap.length (freshNode L.ts v)).set L.heap.length W2).set k
      { m with mods := m.mods ++
        [(L.ts, "next_ptr", some (Val.ref L.heap.length))] }).get? k
      = some { m with mods := m.mods ++
        [(L.ts, "next_ptr", some (Val.ref L.heap.length))] } :=
    List.get?_set_eq_of_lt _ (by simp; omega)
  have hq_k1 : ((((L.heap ++ [mkNode ["value"] ["next_ptr"] 1]).set
      L.heap.length (freshNode L.ts v)).set L.heap.length W2).set k
      { m with mods := m.mods ++
        [(L.ts, "next_ptr", some (Val.ref L.heap.length))] }).get? (k + 1)
      = some W2 := by
    rw [List.get?_set_ne _ _ (by omega),
      show k + 1 = L.heap.length from by omega,
      List.get?_set_eq_of_lt _ (by simp)]
  refine ⟨by simp only []; omega, by rw [hH4len], ?_, ?_, ?_, ?_⟩
  · intro n hn
    rcases List.mem_or_eq_of_mem_set hn with hn3 | hn3
    · rcases List.mem_or_eq_of_mem_set hn3 with hn2 | hn2
      · rcases List.mem_or_eq_of_mem_set hn2 with hn1 | hn1
        · rcases List.mem_append.1 hn1 with hh | hh
          · exact hshape n hh
          · rw [List.mem_singleton] at hh
            rw [hh]
            exact ⟨rfl, fun t => by simp [mkNode]⟩
        · rw [hn1]
          exact ⟨by simp [freshNode, mkNode], fun t => by
            simp [freshNode, mkNode]⟩
      · rw [hn2]
        refine ⟨?_, hW2b⟩
        rw [hW2p]
        simp [freshNode, mkNode]
    · rw [hn3]
      exact ⟨hmp, (hshape m hmmem).2⟩
  · intro n hn e he
    rcases List.mem_or_eq_of_mem_set hn with hn3 | hn3
    · rcases List.mem_or_eq_of_mem_set hn3 with hn2 | hn2
      · rcases List.mem_or_eq_of_mem_set hn2 with hn1 | hn1
        · rcases List.mem_append.1 hn1 with hh | hh
          · have hx := hvb n hh e he
            simp only []
            omega
          · rw [List.mem_singleton] at hh
            rw [hh] at he
            cases he
        · rw [hn1] at he
          simp only [freshNode, mkNode, List.nil_append,
            List.mem_singleton] at he
          rw [he]
          simp only []
          omega
      · rw [hn2] at he
        rw [hW2m] at he
        simp only [freshNode, mkNode, List.nil_append,
          List.mem_singleton] at he
        rw [he]
        simp only []
        omega
    · rw [hn3] at he
      rcases List.mem_append.1 he with hh | hh
      · have hx := hvb m hmmem e hh
        simp only []
        omega
      · rw [List.mem_singleton] at hh
        rw [hh]
        simp only []
        omega
  · intro j hj w hw
    by_cases hjk : j = k
    · subst hjk
      simp only [hread, hq_k]
      unfold PersistentNode.read
      rw [if_pos hmnext]
      rw [readLoop_last_le "next_ptr" w L.ts (some (Val.ref L.heap.length))
        (by omega) m.mods (m.fields "next_ptr")
        (fun e he => by have hx := hvb m hmmem e he; omega)]
      rw [show L.heap.length = j + 1 from by omega]
    · have hjlt : j < k := by omega
      rw [hread_eq_of_get (hq_lt j hjlt)]
      exact hchain j hjlt w hw
  · refine ⟨W2, hq_k1, by rw [hW2m]; simp [freshNode, mkNode], ?_, ?_⟩
    · rw [hW2dt, hW2pt]
      simp [freshNode, mkNode]
    · intro w
      simp only [hread, hq_k1]
      unfold PersistentNode.read
      rw [if_pos (by rw [hW2dt, hW2pt]; simp [freshNode, mkNode])]
      rw [hW2m, hW2f]
      rw [readLoop_no_match "next_ptr" w _ _ ?_]
      · simp [freshNode, mkNode]
      · intro e he
        simp only [freshNode, mkNode, List.nil_append,
          List.mem_singleton] at he
        rw [he]
        simp

/-- Running a block of `append`s from any state satisfying the append
invariant succeeds and extends the invariant by the block's length. -/
theorem runOps_app_appInv : ∀ (vs : List Int) (L : LinkedList) (k g : Nat),
    AppInv L k → k + vs.length + 1 ≤ g →
    ∃ L2, runOps (g + 1) L (vs.map Op.app) = .ok L2 ∧
      AppInv L2 (k + vs.length) := by
  intro vs
  induction vs with
  | nil =>
    intro L k g hinv hfuel
    exact ⟨L, rfl, by simpa using hinv⟩
  | cons v vs ih =>
    intro L k g hinv hfuel
    obtain ⟨L1, happ, hinv1⟩ := appendL_appInv g L k v hinv (by omega)
    obtain ⟨L2, hrun, hinv2⟩ := ih L1 (k + 1) g hinv1 (by simp at hfuel; omega)
    refine ⟨L2, ?_, ?_⟩
    · simp only [List.map_cons, runOps, runOp, happ, LR.andThen]
      exact hrun
    · rw [show k + (v :: vs).length = k + 1 + vs.length from by
        simp; omega]
      exact hinv2

/-- The append-only client program: create a list, seed the root's value,
then append each value of `vs` in turn. -/
def buildApp (g : Nat) (x : Int) (vs : List Int) : LR :=
  runOps (g + 1) mkLinkedList (Op.seed x :: vs.map Op.app)

/-- C2 (amended): the original claim — `|reverse[tag]| ≤ p` for every node,
tag and state reachable by arbitrary operation sequences — is false (see
the counterexample: the demo's own `insert_after_ith_node` call drives a
reverse set to size 2 with `p = 1`).  The bound does hold for append-only
use: for every structure built by seeding the root once and then appending
any sequence of values, the build succeeds and every node of the resulting
heap has at most `p` entries in each reverse set. -/
theorem reverse_sets_bounded_on_append_only
    (g : Nat) (x : Int) (vs : List Int) (hg : vs.length + 1 ≤ g) :
    ∃ L2, buildApp g x vs = .ok L2 ∧
      ∀ n ∈ L2.heap, ∀ t, (n.back t).length ≤ n.p := by
  obtain ⟨hseed, hinv0⟩ := seed_appInv g x
  obtain ⟨L2, hrun, hinv⟩ := runOps_app_appInv vs (seedState x) 0 g hinv0
    (by omega)
  refine ⟨L2, ?_, ?_⟩
  · simp only [buildApp, runOps, runOp, hseed, LR.andThen]
    exact hrun
  · intro n hn t
    obtain ⟨hp, hb⟩ := hinv.2.2.1 n hn
    rw [hp]
    exact hb t

theorem reverse_sets_bounded_on_append_only_witness :
    ([2, 3] : List Int).length + 1 ≤ 3 ∧
    ∃ L2, buildApp 3 1 [2, 3] = .ok L2 ∧
      ∀ n ∈ L2.heap, ∀ t, (n.back t).length ≤ n.p :=
  ⟨by decide, reverse_sets_bounded_on_append_only 3 1 [2, 3] (by decide)⟩

end TimeTravel
